import Mathlib

/-
  Verification development for the Yiddish syllable-boundary / hyphenation
  scripts (yiddish_syllable_boundaries.py and yiddish_hyphenation_latex.py).
  Strings are modelled as `List Char`; Python `re.sub` passes with fixed
  patterns are modelled by the explicit leftmost, non-overlapping rewrite
  functions below.
-/

/-- Replacement of every leftmost, non-overlapping occurrence of the
two-character pattern `[a, b]` by the single character `r`, exactly as
`re.sub` does for a fixed two-character pattern and one-character
replacement (scanning resumes after each match). -/
def sub21 (a b r : Char) : List Char → List Char
  | [] => []
  | [x] => [x]
  | x :: y :: rest =>
    if x = a ∧ y = b then r :: sub21 a b r rest
    else x :: sub21 a b r (y :: rest)

/-- Replacement of every occurrence of the single character `a` by the
two-character sequence `[b, c]` (Python `re.sub` with a one-character
pattern is a pointwise expansion). -/
def sub12 (a b c : Char) : List Char → List Char
  | [] => []
  | x :: rest => if x = a then b :: c :: sub12 a b c rest else x :: sub12 a b c rest

/-- Replacement of every leftmost, non-overlapping occurrence of the
two-character pattern `[p1, p2]` by the two-character sequence `[r1, r2]`. -/
def sub22 (p1 p2 r1 r2 : Char) : List Char → List Char
  | [] => []
  | [x] => [x]
  | x :: y :: rest =>
    if x = p1 ∧ y = p2 then r1 :: r2 :: sub22 p1 p2 r1 r2 rest
    else x :: sub22 p1 p2 r1 r2 (y :: rest)

/-- Replacement of every leftmost, non-overlapping occurrence of the
three-character pattern `[p1, p2, p3]` by the two-character sequence
`[r1, r2]`. -/
def sub32 (p1 p2 p3 r1 r2 : Char) : List Char → List Char
  | [] => []
  | [x] => [x]
  | [x, y] => [x, y]
  | x :: y :: z :: rest =>
    if x = p1 ∧ y = p2 ∧ z = p3 then r1 :: r2 :: sub32 p1 p2 p3 r1 r2 rest
    else x :: sub32 p1 p2 p3 r1 r2 (y :: z :: rest)

/-- Absence of an adjacent pair `[p, q]` anywhere in the string. -/
def noPair (p q : Char) : List Char → Prop
  | x :: y :: rest => ¬(x = p ∧ y = q) ∧ noPair p q (y :: rest)
  | _ => True

instance noPair.dec (p q : Char) : ∀ s, Decidable (noPair p q s)
  | [] => .isTrue trivial
  | [x] => .isTrue trivial
  | x :: y :: rest =>
    have : Decidable (noPair p q (y :: rest)) := noPair.dec p q (y :: rest)
    inferInstanceAs (Decidable (¬(x = p ∧ y = q) ∧ noPair p q (y :: rest)))

/-- Python `str.startswith`. -/
def pyStartsWith (p w : List Char) : Bool := decide (w.take p.length = p)

/-- Python `str.endswith`. -/
def pyEndsWith (p w : List Char) : Bool :=
  decide (w.drop (w.length - p.length) = p ∧ p.length ≤ w.length)

/-- Python `str.index` for a single character: index of the first
occurrence, or `none` (which models the raised `ValueError`). -/
def pyIndex (c : Char) : List Char → Option Nat
  | [] => none
  | x :: rest => if x = c then some 0 else (pyIndex c rest).map (· + 1)

/-- Python `str.rindex` for a single character: index of the last
occurrence, or `none` (which models the raised `ValueError`). -/
def pyRIndex (c : Char) (s : List Char) : Option Nat :=
  (pyIndex c s.reverse).map (fun i => s.length - 1 - i)

/-- Python substring membership `p in s` for a fixed pattern `p`. -/
def containsSeq (p : List Char) : List Char → Bool
  | [] => decide (p = [])
  | x :: rest => pyStartsWith p (x :: rest) || containsSeq p rest

/-- The whitespace characters of `str.split()` and of the regex class
`\s` (restricted to the ASCII whitespace actually reachable here: the
only whitespace the pipeline itself introduces is `' '`). -/
def isPyWs (c : Char) : Bool :=
  c = ' ' || c = '\t' || c = '\n' || c = '\x0d' || c = '\x0b' || c = '\x0c'

/-- Python `str.split()` (split on whitespace runs, no empty pieces),
via an accumulator for the current in-progress token (kept reversed). -/
def splitWsAux (acc : List Char) : List Char → List (List Char)
  | [] => if acc = [] then [] else [acc.reverse]
  | c :: rest =>
    if isPyWs c then
      if acc = [] then splitWsAux [] rest else acc.reverse :: splitWsAux [] rest
    else splitWsAux (c :: acc) rest

/-- Python `str.split()` on whitespace. -/
def pySplitWs (s : List Char) : List (List Char) := splitWsAux [] s

/-- Python `str.split(' ')`: split at every single space, keeping empty
pieces. -/
def splitSpace : List Char → List (List Char)
  | [] => [[]]
  | c :: rest =>
    if c = ' ' then [] :: splitSpace rest
    else
      match splitSpace rest with
      | t :: ts => (c :: t) :: ts
      | [] => [[c]]

/-- The `itertools.product` of a list of choice lists, in the same order
(first factor varies slowest). -/
def listProd : List (List (List Char)) → List (List (List Char))
  | [] => [[]]
  | xs :: rest => xs.bind fun x => (listProd rest).map (x :: ·)

/-- Python `' '.join`. -/
def spaceJoin (ts : List (List Char)) : List Char := List.intercalate [' '] ts

/-- Removal of every hyphen, as in joining syllables without hyphens. -/
def removeHyphens (s : List Char) : List Char := s.filter (· ≠ '-')

example : sub21 'a' 'b' 'c' ['a', 'b', 'a', 'a', 'b'] = ['c', 'a', 'c'] := by decide
example : sub12 'c' 'a' 'b' ['c', 'x', 'c'] = ['a', 'b', 'x', 'a', 'b'] := by decide
example : pySplitWs [' ', 'a', 'b', ' ', ' ', 'c'] = [['a', 'b'], ['c']] := by decide
example : splitSpace ['a', ' ', 'b'] = [['a'], ['b']] := by decide
example : pyRIndex 'a' ['a', 'b', 'a', 'b'] = some 2 := by decide
example : listProd [[['a'], ['b']], [['c']]] = [[['a'], ['c']], [['b'], ['c']]] := by decide
example : pyEndsWith ['b'] ['a', 'b'] = true ∧ pyEndsWith ['a', 'b', 'c'] ['b', 'c'] = false := by decide

/-! ## The canonicalizer of yiddish_syllable_boundaries.py (lines 32-71) -/

/-- The substitution table of `combine_chars` (lines 33-48), in source
order: each two-codepoint decomposed sequence with its single combined
character. -/
def combinations : List (Char × Char × Char) := [
  ('א', 'ַ', 'אַ'),
  ('א', 'ָ', 'אָ'),
  ('ב', 'ֿ', 'בֿ'),
  ('ו', 'ּ', 'וּ'),
  ('ו', 'ו', 'װ'),
  ('ו', 'י', 'ױ'),
  ('י', 'ִ', 'יִ'),
  ('י', 'י', 'ײ'),
  ('ײ', 'ַ', 'ײַ'),
  ('כ', 'ּ', 'כּ'),
  ('פ', 'ּ', 'פּ'),
  ('פ', 'ֿ', 'פֿ'),
  ('ש', 'ׂ', 'שׂ'),
  ('ת', 'ּ', 'תּ')]

/-- `combine_chars` (lines 32-51): the fourteen `re.sub` passes applied
in table order. -/
def combine_chars (s : List Char) : List Char :=
  combinations.foldl (fun t p => sub21 p.1 p.2.1 p.2.2 t) s

/-- The substitution table of `separate_chars` (lines 56-68), in source
order: each combined character with its two-codepoint decomposition.
The three digraphs װ, ױ, ײ are intentionally absent. -/
def separations : List (Char × Char × Char) := [
  ('אַ', 'א', 'ַ'),
  ('אָ', 'א', 'ָ'),
  ('בֿ', 'ב', 'ֿ'),
  ('וּ', 'ו', 'ּ'),
  ('יִ', 'י', 'ִ'),
  ('ײַ', 'ײ', 'ַ'),
  ('כּ', 'כ', 'ּ'),
  ('פּ', 'פ', 'ּ'),
  ('פֿ', 'פ', 'ֿ'),
  ('שׂ', 'ש', 'ׂ'),
  ('תּ', 'ת', 'ּ')]

/-- `separate_chars` (lines 55-71): the eleven `re.sub` passes applied
in table order. -/
def separate_chars (s : List Char) : List Char :=
  separations.foldl (fun t p => sub12 p.1 p.2.1 p.2.2 t) s

/-! ## The phonological preprocessor (lines 76-98) -/

/-- The vowel graphemes of the lookbehind/lookahead classes in the
syllabic-sonorant regexes (lines 88-90); each alternative is a single
combined character. -/
def vowelCtx : List Char :=
  ['אַ', 'ע', 'י', 'אָ', 'ו', 'ײ', 'ײַ', 'ױ', 'יִ', 'וּ']

/-- Truth of the negative lookbehind `(?<!\s|אַ|ע|י|אָ|ו|ײ|ײַ|ױ|יִ|וּ)` at a
position whose preceding character is `prev` (`none` at the start of the
string, where a negative lookbehind succeeds). -/
def behindOk : Option Char → Bool
  | none => true
  | some p => !(isPyWs p || decide (p ∈ vowelCtx))

/-- Truth of the negative lookahead `(?!אַ|ע|י|אָ|ו|ײ|ײַ|ױ|יִ|וּ)` at a
position followed by `rest`. -/
def aheadOk : List Char → Bool
  | [] => true
  | n :: _ => !(decide (n ∈ vowelCtx))

/-- One contextual `re.sub` pass for a single-character pattern guarded
by the lookarounds of lines 88-90: the character `target` is replaced by
`rep` where the lookbehind holds (and, when `useAhead` is set, the
lookahead as well). Lookarounds inspect the input string, so the
context carried into the recursion is the original character. -/
def sonorantSub (target rep : Char) (useAhead : Bool) : Option Char → List Char → List Char
  | _, [] => []
  | prev, c :: rest =>
    (if c = target && behindOk prev && (!useAhead || aheadOk rest) then rep else c) ::
      sonorantSub target rep useAhead (some c) rest

/-- The final check of lines 93-96: a word-initial `ņ` or `ļ` placeholder
is restored to its ordinary grapheme. No case restores a word-initial
`Ņ`. -/
def undoInitial : List Char → List Char
  | [] => []
  | c :: rest =>
    if c = 'ņ' then 'נ' :: rest
    else if c = 'ļ' then 'ל' :: rest
    else c :: rest

/-- The character-rewriting core of `replace_consonant_j_syllabic_nl`
(lines 77-96), before the final `' '.join`: the eight consonantal-yud
substitutions of lines 77-84 in source order (the patterns of lines 81
and 82 are the three-codepoint sequences actually present in the
source), the three syllabic-sonorant passes of lines 88-90, and the
word-initial restore of lines 93-96. -/
def replaceCore (s : List Char) : List Char :=
  undoInitial
    (sonorantSub 'ל' 'ļ' true none
      (sonorantSub 'ן' 'Ņ' false none
        (sonorantSub 'נ' 'ņ' true none
          (sub22 'י' 'ױ' 'j' 'ױ'
            (sub22 'י' 'ײ' 'j' 'ײ'
              (sub32 'י' 'ײ' 'ַ' 'j' 'ײַ'
                (sub32 'י' 'י' 'ִ' 'j' 'יִ'
                  (sub22 'י' 'ע' 'j' 'ע'
                    (sub22 'י' 'ו' 'j' 'ו'
                      (sub22 'י' 'אָ' 'j' 'אָ'
                        (sub22 'י' 'אַ' 'j' 'אַ' s)))))))))))

/-- `replace_consonant_j_syllabic_nl` (lines 76-98): the rewriting core
followed by `' '.join(list(string))`. -/
def replace_consonant_j_syllabic_nl (s : List Char) : List Char :=
  List.intersperse ' ' (replaceCore s)

/-! ## The onset-inventory builder `generate_yiddish_patterns` (lines 101-224) -/

/-- The transliteration-to-grapheme map of lines 109-138, in source
order; values are the grapheme options exactly as written in the source
(decomposed sequences; `Zh` maps to the single option `ז ש`). -/
def transliterations : List (List Char × List (List Char)) := [
  (['A'], [['א', 'ַ']]),
  (['A', 'y'], [['ײ', 'ַ']]),
  (['B'], [['ב']]),
  (['D'], [['ד']]),
  (['E'], [['ע']]),
  (['E', 'y'], [['ײ']]),
  (['F'], [['פ', 'ֿ']]),
  (['G'], [['ג']]),
  (['H'], [['ה']]),
  (['I'], [['י'], ['י', 'ִ']]),
  (['K'], [['ק'], ['כ', 'ּ']]),
  (['K', 'h'], [['כ'], ['ח']]),
  (['L'], [['ל']]),
  (['M'], [['מ']]),
  (['N'], [['נ']]),
  (['O'], [['א', 'ָ']]),
  (['O', 'y'], [['ױ']]),
  (['P'], [['פ', 'ּ']]),
  (['R'], [['ר']]),
  (['S'], [['ס'], ['ש', 'ׂ'], ['ת']]),
  (['S', 'h'], [['ש']]),
  (['T'], [['ט'], ['ת', 'ּ']]),
  (['T', 's'], [['צ']]),
  (['U'], [['ו'], ['ו', 'ּ']]),
  (['V'], [['װ'], ['ב', 'ֿ']]),
  (['Y'], [['j']]),
  (['Z'], [['ז']]),
  (['Z', 'h'], [['ז', ' ', 'ש']])]

/-- Dictionary lookup `transliterations[phoneme]` (every label occurring
in the skeleton list is present, so the default is never reached). -/
def lookupT (k : List Char) : List (List Char) :=
  (transliterations.lookup k).getD []

/-- The vowel (nucleus) list of lines 141-155, including the three
syllabic-sonorant placeholders. -/
def vowels : List (List Char) := [
  ['אַ'], ['ע'], ['י'], ['אָ'], ['ו'], ['ײ'], ['ײַ'],
  ['ױ'], ['יִ'], ['וּ'], ['ņ'], ['Ņ'], ['ļ']]

/-- The consonant list of lines 157-190. -/
def consonants : List (List Char) := [
  ['א'], ['ב'], ['בֿ'], ['ג'], ['ד'], ['ה'], ['װ'], ['ז'],
  ['ח'], ['ט'], ['j'], ['כּ'], ['כ'], ['ך'], ['ל'], ['מ'],
  ['ם'], ['נ'], ['ן'], ['ס'], ['ע'], ['פּ'], ['פֿ'], ['ף'],
  ['צ'], ['ץ'], ['ק'], ['ר'], ['ש'], ['שׂ'], ['תּ'], ['ת']]

/-- The onset-skeleton list of lines 194-201, in source order (the
skeleton `P L` is listed twice, exactly as in the source). -/
def onsets : List (List Char) := [
  ['P', ' ', 'T'], ['P', ' ', 'L'], ['P', ' ', 'R'], ['P', ' ', 'N'], ['P', ' ', 'S'], ['P', ' ', 'S', 'h'],
  ['P', ' ', 'K', 'h'], ['P', ' ', 'L'], ['P', ' ', 'K'], ['T', ' ', 'R'], ['T', ' ', 'M'], ['B', ' ', 'D'],
  ['B', ' ', 'L'], ['B', ' ', 'R'], ['B', ' ', 'G'], ['D', ' ', 'L'], ['D', ' ', 'N'], ['T', ' ', 'N'],
  ['T', ' ', 'L'], ['T', ' ', 'K'], ['T', ' ', 'V'], ['T', ' ', 'F'], ['T', ' ', 'K', 'h'], ['D', ' ', 'R'],
  ['D', ' ', 'V'], ['K', ' ', 'N'], ['K', ' ', 'T'], ['K', ' ', 'D'], ['K', ' ', 'L'], ['K', ' ', 'S'],
  ['K', ' ', 'R'], ['K', ' ', 'V'], ['G', ' ', 'N'], ['G', ' ', 'L'], ['G', ' ', 'R'], ['G', ' ', 'V'],
  ['G', ' ', 'Z'], ['F', ' ', 'L'], ['F', ' ', 'R'], ['V', ' ', 'L'], ['V', ' ', 'R'], ['S', ' ', 'M'],
  ['S', ' ', 'F'], ['S', ' ', 'V'], ['S', ' ', 'N'], ['S', ' ', 'T'], ['S', ' ', 'D'], ['S', ' ', 'K'],
  ['S', ' ', 'P'], ['S', ' ', 'K', 'h'], ['S', ' ', 'R'], ['S', ' ', 'L'], ['Z', ' ', 'M'], ['Z', ' ', 'N'],
  ['Z', ' ', 'G'], ['Z', ' ', 'R'], ['Z', ' ', 'L'], ['Z', ' ', 'B'], ['S', 'h', ' ', 'M'], ['S', 'h', ' ', 'V'],
  ['S', 'h', ' ', 'F'], ['S', 'h', ' ', 'N'], ['S', 'h', ' ', 'T'], ['S', 'h', ' ', 'P'], ['S', 'h', ' ', 'K'], ['S', 'h', ' ', 'K', 'h'],
  ['S', 'h', ' ', 'R'], ['S', 'h', ' ', 'L'], ['S', 'h', ' ', 'T', ' ', 'S', 'h'], ['Z', 'h', ' ', 'M'], ['Z', 'h', ' ', 'L'], ['K', 'h', ' ', 'M'],
  ['K', 'h', ' ', 'V'], ['K', 'h', ' ', 'S', 'h'], ['K', 'h', ' ', 'S'], ['K', 'h', ' ', 'L'], ['K', 'h', ' ', 'K'], ['K', 'h', ' ', 'T', 's'],
  ['K', 'h', ' ', 'N'], ['K', 'h', ' ', 'R'], ['T', 's', ' ', 'L'], ['T', 's', ' ', 'N'], ['T', 's', ' ', 'D'], ['T', 's', ' ', 'V'],
  ['T', ' ', 'S', 'h', ' ', 'V'], ['M', ' ', 'R'], ['M', ' ', 'L'], ['S', 'h', ' ', 'P', ' ', 'R'], ['S', 'h', ' ', 'T', ' ', 'R'], ['S', 'h', ' ', 'K', ' ', 'R'],
  ['S', 'h', ' ', 'P', ' ', 'L'], ['S', 'h', ' ', 'K', ' ', 'L'], ['S', ' ', 'P', ' ', 'R'], ['S', ' ', 'T', ' ', 'R'], ['S', ' ', 'K', ' ', 'R'], ['S', ' ', 'P', ' ', 'L'],
  ['S', ' ', 'K', ' ', 'L'], ['T', ' ', 'S', 'h'], ['D', ' ', 'Z', 'h']]

/-- The expansion of one skeleton: split on single spaces, look every
label up, and take the `itertools.product` of the options (lines
205-208). -/
def expandOnset (o : List Char) : List (List (List Char)) :=
  listProd ((splitSpace o).map lookupT)

/-- `all_onsets` (lines 204-215): every expansion space-joined and
flattened in order, then the null onset, then every singleton
consonant. -/
def all_onsets : List (List Char) :=
  ((onsets.map expandOnset).flatten.map spaceJoin) ++ [[]] ++ consonants

/-- The record built by `generate_yiddish_patterns` (lines 219-224),
with the dictionary keys `consonants`, `vowels`, `onsets`. -/
structure YiddishPatterns where
  consonants : List (List Char)
  vowels : List (List Char)
  onsets : List (List Char)
deriving DecidableEq

/-- `generate_yiddish_patterns` (lines 101-224). In the source under
src/ this function takes no argument (there is no `system` parameter
and no alternative onset list). -/
def generate_yiddish_patterns : YiddishPatterns :=
  ⟨consonants, vowels, all_onsets⟩

/-! ## The core syllabifier (spec §4.4)

The module `syllabifier` imported at line 17 of
yiddish_syllable_boundaries.py is not part of src/, so its algorithm is
modelled from the spec. -/

/-- One syllable: onset, nucleus and coda token lists (the stress slot
of the external module is always empty here, since no grapheme ends in
a digit, and non-list slots are skipped when the caller joins a
syllable). -/
structure Syl where
  onset : List (List Char)
  nucleus : List (List Char)
  coda : List (List Char)
deriving DecidableEq

/-- Modelled from the spec: the Maximum-Onset split of the consonant
run between two nuclei (spec §4.4 step 3). Starting from the whole run
(the longest candidate), the first suffix whose space-join is a member
of the onset inventory becomes the onset of the following syllable, and
the consonants to its left become the coda of the preceding syllable;
if no suffix at all is legal the empty onset is used. -/
def splitRun (O : List (List Char)) : List (List Char) → List (List Char) × List (List Char)
  | [] => ([], [])
  | c :: rest =>
    if spaceJoin (c :: rest) ∈ O then ([], c :: rest)
    else ((c :: (splitRun O rest).1), (splitRun O rest).2)

/-- Modelled from the spec: the state-passing loop of the external
syllabifier (spec §4.4 steps 1-4). `rsyls` holds the finished syllables
most-recent-first, `inter` the consonants seen since the last nucleus.
A vowel-class token (vowel membership is tested first) closes the run:
at the start of the word the whole run becomes the onset with no
legality check, otherwise `splitRun` divides it; a consonant-class
token extends the run; any other token is the unrecognized-character
error; at the end trailing consonants join the last coda, and a word
with zero nuclei degenerates to one unsplit syllable. -/
def finishSyll (rsyls : List Syl) (inter : List (List Char)) : List Syl :=
  match rsyls with
  | [] => [⟨[], [], inter⟩]
  | s :: rest => (⟨s.onset, s.nucleus, s.coda ++ inter⟩ :: rest).reverse

/-- Modelled from the spec: the action at a nucleus (spec §4.4 steps
2-4). At the start of the word the whole consonant run becomes the
onset with no legality check; otherwise `splitRun` divides the run
between the previous syllable's coda and the new onset. -/
def pushSyll (O : List (List Char)) (rsyls : List Syl) (inter : List (List Char))
    (t : List Char) : List Syl :=
  match rsyls with
  | [] => [⟨inter, [t], []⟩]
  | s :: rest =>
    ⟨(splitRun O inter).2, [t], []⟩ ::
      ⟨s.onset, s.nucleus, s.coda ++ (splitRun O inter).1⟩ :: rest

def goSyll (pats : YiddishPatterns) (rsyls : List Syl) (inter : List (List Char)) :
    List (List Char) → Except Unit (List Syl)
  | [] => .ok (finishSyll rsyls inter)
  | t :: ts =>
    if t ∈ pats.vowels then goSyll pats (pushSyll pats.onsets rsyls inter t) [] ts
    else if t ∈ pats.consonants then goSyll pats rsyls (inter ++ [t]) ts
    else .error ()

/-- Modelled from the spec: `syllabifier.syllabify` on one
already-whitespace-split token list (spec §4.4). -/
def syllabifyTokens (pats : YiddishPatterns) (ts : List (List Char)) : Except Unit (List Syl) :=
  goSyll pats [] [] ts

/-! ## `add_syllable_boundaries` (lines 226-258) -/

/-- The punctuation class of the `re.split` pattern at line 230. -/
def splitPunct : List Char :=
  ['.', '-', (Char.ofNat 92), '/', '!', '?', '־', '„', '“', '”', '′', '״', '″',
   (Char.ofNat 34), (Char.ofNat 39), ';']

def isSplitPunct (c : Char) : Bool := decide (c ∈ splitPunct)

/-- Python `re.split('([...])', s)` for a single-character class with a
capturing group: alternating (possibly empty) non-matching chunks and
single matched characters, starting and ending with a chunk. -/
def pySplitKeep : List Char → List (List Char)
  | [] => [[]]
  | c :: rest =>
    if isSplitPunct c then [] :: [c] :: pySplitKeep rest
    else
      match pySplitKeep rest with
      | chunk :: pieces => (c :: chunk) :: pieces
      | [] => [[c]]

/-- The punctuation list of line 232 against which each subword is
tested, in source order. -/
def punctStrings : List (List Char) :=
  [[(Char.ofNat 34)], [(Char.ofNat 39)], ['.'], ['-'], [(Char.ofNat 92)], ['/'], ['!'], ['?'],
   ['־'], ['„'], ['״'], ['“'], ['”'], ['′'], ['″'], [';']]

/-- Tokens of one syllable in order; the caller of the external module
concatenates exactly these three lists (lines 238-242). -/
def sylTokens (s : Syl) : List (List Char) := s.onset ++ s.nucleus ++ s.coda

/-- The string built at lines 237-243: each syllable's tokens joined,
a hyphen after every syllable. -/
def renderSyls (syls : List Syl) : List Char :=
  syls.flatMap (fun s => (sylTokens s).flatten ++ ['-'])

/-- `re.sub(r'\-$', '', result)` (line 250): drop one trailing hyphen. -/
def stripTrailingHyphen (s : List Char) : List Char :=
  match s.getLast? with
  | some c => if c = '-' then s.dropLast else s
  | none => s

/-- The composition of the four single-character `re.sub` passes of
lines 246-249 on one character (j, ņ, Ņ, ļ back to י, נ, ן, ל); a
single-character `re.sub` is a pointwise map and none of the four
replacement characters equals a later pattern, so the four passes
compose to one map of this function. -/
def revertChar (c : Char) : Char :=
  if c = 'j' then 'י'
  else if c = 'ņ' then 'נ'
  else if c = 'Ņ' then 'ן'
  else if c = 'ļ' then 'ל'
  else c

/-- The body of the `try` block (lines 233-252) for one non-punctuation
subword: syllabify its whitespace-split tokens, join with hyphens,
translate the placeholder characters back, and drop the trailing
hyphen. `none` models the exception caught at line 253. -/
def processSubword (pats : YiddishPatterns) (seg : List Char) : Option (List Char) :=
  match syllabifyTokens pats (pySplitWs seg) with
  | .ok syls => some (stripTrailingHyphen ((renderSyls syls).map revertChar))
  | .error _ => none

/-- The subword loop of lines 231-256, carrying the accumulated list.
On the exception branch (line 254) the accumulator is reassigned to the
characters of the current subword (`subwords_syllabified =
list(subword)`), discarding everything accumulated so far. -/
def addLoop (pats : YiddishPatterns) : List (List Char) → List (List Char) → List (List Char)
  | acc, [] => acc
  | acc, seg :: rest =>
    if seg ∈ punctStrings then addLoop pats (acc ++ [seg]) rest
    else
      match processSubword pats seg with
      | some r => addLoop pats (acc ++ [r]) rest
      | none => addLoop pats (seg.map (fun c => [c])) rest

/-- `add_syllable_boundaries` (lines 226-258). -/
def add_syllable_boundaries (pats : YiddishPatterns) (word : List Char) : List Char :=
  (addLoop pats [] (pySplitKeep word)).flatten

example :
    add_syllable_boundaries generate_yiddish_patterns
      (replace_consonant_j_syllabic_nl (combine_chars ['ג', 'ו', 'ט'])) = ['ג', 'ו', 'ט'] := by
  decide

/-! ## The hyphenation pipeline of yiddish_hyphenation_latex.py -/

/-- The prefix/particle table of lines 53-100, in source order. -/
def prefixes : List (List Char) := [
  ['א', 'ַ', 'ד', 'ו', 'ר', 'כ'],
  ['ד', 'ו', 'ר', 'כ'],
  ['א', 'ַ', 'ה', 'י', 'נ'],
  ['א', 'ַ', 'ה', 'ע', 'ר'],
  ['א', 'ַ', 'װ', 'ע', 'ק'],
  ['א', 'ױ', 'ס'],
  ['א', 'ו', 'מ'],
  ['א', 'ו', 'נ', 'ט', 'ע', 'ר'],
  ['א', 'ױ', 'פ', 'ֿ'],
  ['א', 'ַ', 'נ', 'ט', 'ק', 'ע', 'ג', 'נ'],
  ['א', 'ַ', 'ק', 'ע', 'ג', 'נ'],
  ['ק', 'ע', 'ג', 'נ'],
  ['א', 'י', 'ב', 'ע', 'ר'],
  ['א', 'ײ', 'ַ', 'נ'],
  ['א', 'ָ', 'נ'],
  ['א', 'ַ', 'נ', 'י', 'ד', 'ע', 'ר'],
  ['א', 'ָ', 'פ', 'ּ'],
  ['א', 'ַ', 'ר', 'א', 'ָ', 'פ', 'ּ'],
  ['א', 'ַ', 'ר', 'ױ', 'ס'],
  ['א', 'ַ', 'ר', 'ו', 'מ'],
  ['א', 'ַ', 'ר', 'ױ', 'פ', 'ֿ'],
  ['א', 'ַ', 'ר', 'י', 'ב', 'ע', 'ר'],
  ['א', 'ַ', 'ר', 'ײ', 'ַ', 'נ'],
  ['ב', 'ײ', 'ַ'],
  ['מ', 'י', 'ט'],
  ['נ', 'א', 'ָ', 'כ'],
  ['פ', 'ֿ', 'ו', 'נ', 'א', 'ַ', 'נ', 'ד', 'ע', 'ר'],
  ['פ', 'ֿ', 'א', 'ַ', 'נ', 'א', 'ַ', 'נ', 'ד', 'ע', 'ר'],
  ['פ', 'ֿ', 'א', 'ָ', 'ר'],
  ['פ', 'ֿ', 'א', 'ָ', 'ר', 'ױ', 'ס'],
  ['א', 'ַ', 'פ', 'ֿ', 'ע', 'ר'],
  ['א', 'ַ', 'פ', 'ֿ', 'י', 'ר'],
  ['פ', 'ֿ', 'י', 'ר'],
  ['צ', 'ו', 'ז', 'א', 'ַ', 'מ', 'ע', 'נ'],
  ['צ', 'ו', 'נ', 'ױ', 'פ', 'ֿ'],
  ['צ', 'ו', 'ר', 'י', 'ק'],
  ['צ', 'ו'],
  ['ק', 'ר', 'י', 'ק'],
  ['ק', 'א', 'ַ', 'ר', 'י', 'ק'],
  ['פ', 'ֿ', 'א', 'ַ', 'ר', 'ב', 'ײ', 'ַ'],
  ['א', 'ַ', 'נ', 'ט'],
  ['ב', 'א', 'ַ'],
  ['ג', 'ע'],
  ['ד', 'ע', 'ר'],
  ['פ', 'ֿ', 'א', 'ַ', 'ר'],
  ['צ', 'ע']]

/-- The inner loop of lines 108-113: scan the table in order and split
after the first entry that the word starts with but does not end with;
`word_added` stays false when no entry qualifies. -/
def prefixLoop (w : List Char) : List (List Char) → List Char
  | [] => w
  | p :: ps =>
    if pyStartsWith p w && !pyEndsWith p w then p ++ '-' :: w.drop p.length
    else prefixLoop w ps

/-- The prefix-separation step of lines 103-115 for one word:
`word.startswith(prefixes)` guards the loop, and a word for which the
loop finds no qualifying entry is appended unchanged. -/
def separatePrefixStep (w : List Char) : List Char :=
  if prefixes.any (fun p => pyStartsWith p w) then prefixLoop w prefixes else w

/-- The loshn-koydesh marker tuple of line 139, with the exact
(decomposed) character sequences of the source. -/
def loshnMarkers : List (List Char) :=
  [['ב', 'ֿ'], ['ח'], ['כ', 'ּ'], ['ש', 'ׂ'], ['ת', 'ּ'], ['ת']]

/-- The post-filter body of lines 133-141 for one word: delete the
first hyphen when fewer than two combined characters precede it, then
(when a hyphen remains) delete the last hyphen when fewer than three
combined characters follow it, then strip all hyphens when a
loshn-koydesh marker occurs in the word. `none` models an uncaught
`ValueError` from `index`/`rindex`. -/
def postFilterFirst (w : List Char) : Option (List Char) := do
  let i1 ← pyIndex '-' (combine_chars w)
  if ((combine_chars w).take i1).length < 2 then do
    let j1 ← pyIndex '-' w
    pure (w.take j1 ++ w.drop (j1 + 1))
  else pure w

/-- Lines 136-138: when a hyphen remains, delete the last hyphen when
fewer than three combined characters follow it. -/
def postFilterSecond (w1 : List Char) : Option (List Char) :=
  if '-' ∈ w1 then do
    let i2 ← pyRIndex '-' (combine_chars w1)
    if ((combine_chars w1).drop (i2 + 1)).length < 3 then do
      let j2 ← pyRIndex '-' w1
      pure (w1.take j2 ++ w1.drop (j2 + 1))
    else pure w1
  else pure w1

/-- Lines 139-140: strip all hyphens when a loshn-koydesh marker occurs
in the word. -/
def postFilterThird (w2 : List Char) : List Char :=
  if loshnMarkers.any (fun m => containsSeq m w2) then removeHyphens w2 else w2

def postFilterWord (w : List Char) : Option (List Char) := do
  let w1 ← postFilterFirst w
  let w2 ← postFilterSecond w1
  pure (postFilterThird w2)

/-- The filter of lines 125-126: only syllabified words that contain a
hyphen enter `hyphenated_words`. -/
def keepHyphenated (l : List (List Char)) : List (List Char) :=
  l.filter (fun w => decide ('-' ∈ w))

/-- The post-filter loop of lines 132-141: every word is appended to
`final_hyphenated_words`, whatever the filters did to it; a `none`
anywhere aborts the loop, modelling an uncaught exception. -/
def postFilterAll : List (List Char) → Option (List (List Char))
  | [] => some []
  | w :: rest => do
      let w2 ← postFilterWord w
      let out ← postFilterAll rest
      pure (w2 :: out)

/-- Modelled from the spec together with CPython call semantics: line
119 of yiddish_hyphenation_latex.py calls
`generate_yiddish_patterns(args.system)` with one positional argument,
but the definition under src/ (yiddish_syllable_boundaries.py line 101)
takes no parameter, so for every selector value the call raises
`TypeError` before any onset inventory is built. -/
def latexBuildPatterns (system : List Char) : Except Unit YiddishPatterns :=
  Except.error ()

example : separatePrefixStep ['ג', 'ע', 'ז', 'ו', 'נ', 'ט'] =
    ['ג', 'ע', '-', 'ז', 'ו', 'נ', 'ט'] := by decide
example : separatePrefixStep ['צ', 'ו', 'צ', 'ו'] = ['צ', 'ו', 'צ', 'ו'] := by decide
example : postFilterWord ['א', '-', 'ב', 'ב'] = some ['א', 'ב', 'ב'] := by decide
example : postFilterWord ['א', 'ב', '-', 'ב', 'ב', 'ב'] = some ['א', 'ב', '-', 'ב', 'ב', 'ב'] := by
  decide

/-! ## Generic rewrite lemmas -/

theorem sub12_append (a b c : Char) (s t : List Char) :
    sub12 a b c (s ++ t) = sub12 a b c s ++ sub12 a b c t := by
  induction s with
  | nil => rfl
  | cons x rest ih =>
      simp only [List.cons_append, sub12]
      by_cases hx : x = a
      · simp [hx, ih]
      · simp [hx, ih]

theorem foldl_sub12_append (ps : List (Char × Char × Char)) (s t : List Char) :
    ps.foldl (fun u p => sub12 p.1 p.2.1 p.2.2 u) (s ++ t) =
      ps.foldl (fun u p => sub12 p.1 p.2.1 p.2.2 u) s ++
        ps.foldl (fun u p => sub12 p.1 p.2.1 p.2.2 u) t := by
  induction ps generalizing s t with
  | nil => rfl
  | cons p ps ih => simp only [List.foldl_cons]; rw [sub12_append, ih]

theorem separate_chars_append (s t : List Char) :
    separate_chars (s ++ t) = separate_chars s ++ separate_chars t :=
  foldl_sub12_append separations s t

/-- The action of `separate_chars` on one character. -/
def sepChar (c : Char) : List Char := separate_chars [c]

theorem separate_chars_eq_flatMap (s : List Char) :
    separate_chars s = s.flatMap sepChar := by
  induction s with
  | nil => rfl
  | cons c rest ih =>
      have h : c :: rest = [c] ++ rest := rfl
      rw [h, separate_chars_append, ih]
      simp [sepChar, List.flatMap_append]

theorem flatMap_sepChar_sub21 (a b r : Char) (hr : sepChar r = [a, b])
    (ha : sepChar a = [a]) (hb : sepChar b = [b]) (s : List Char) :
    (sub21 a b r s).flatMap sepChar = s.flatMap sepChar := by
  induction s using sub21.induct a b r with
  | case1 => rfl
  | case2 x => rfl
  | case3 x y rest h ih =>
      obtain ⟨hx, hy⟩ := h
      subst hx; subst hy
      rw [show sub21 x y r (x :: y :: rest) = r :: sub21 x y r rest from by simp [sub21]]
      simp [List.flatMap_cons, hr, ha, hb, ih]
  | case4 x y rest h ih =>
      simp only [sub21, if_neg h, List.flatMap_cons] at ih ⊢
      rw [ih]

theorem noPair_tail (p q x : Char) (s : List Char) (h : noPair p q (x :: s)) :
    noPair p q s := by
  cases s with
  | nil => trivial
  | cons y rest => exact h.2

theorem noPair_cons (p q x : Char) (s : List Char)
    (hx : ∀ z, s.head? = some z → ¬(x = p ∧ z = q)) (hs : noPair p q s) :
    noPair p q (x :: s) := by
  cases s with
  | nil => trivial
  | cons y rest => exact ⟨hx y rfl, hs⟩

theorem sub21_head? (a b r : Char) (s : List Char) :
    (sub21 a b r s).head? = s.head? ∨ (sub21 a b r s).head? = some r := by
  match s with
  | [] => exact Or.inl rfl
  | [x] => exact Or.inl rfl
  | x :: y :: rest =>
      by_cases h : x = a ∧ y = b
      · right; simp [sub21, if_pos h]
      · left; simp [sub21, if_neg h]

theorem noPair_sub21 (p q a b r : Char) (h1 : r ≠ p) (h2 : r ≠ q) (s : List Char)
    (hs : noPair p q s) : noPair p q (sub21 a b r s) := by
  induction s using sub21.induct a b r with
  | case1 => trivial
  | case2 x => trivial
  | case3 x y rest h ih =>
      simp only [sub21, if_pos h]
      refine noPair_cons p q r _ (fun z _ hz => h1 hz.1) ?_
      exact ih (noPair_tail _ _ _ _ (noPair_tail _ _ _ _ hs))
  | case4 x y rest h ih =>
      simp only [sub21, if_neg h]
      have htail := ih (noPair_tail _ _ _ _ hs)
      refine noPair_cons p q x _ (fun z hz hxz => ?_) htail
      rcases sub21_head? a b r (y :: rest) with hh | hh
      · rw [hz] at hh
        simp only [List.head?_cons] at hh
        have hzy : z = y := by injection hh
        exact hs.1 ⟨hxz.1, hzy ▸ hxz.2⟩
      · rw [hz] at hh
        have hzr : z = r := by injection hh
        exact h2 ((hzr ▸ hxz.2 : r = q))

theorem sub21_eq_of_noPair (a b r : Char) (s : List Char) (hs : noPair a b s) :
    sub21 a b r s = s := by
  induction s using sub21.induct a b r with
  | case1 => rfl
  | case2 x => rfl
  | case3 x y rest h ih => exact absurd h hs.1
  | case4 x y rest h ih =>
      simp only [sub21, if_neg h]
      rw [ih (noPair_tail _ _ _ _ hs)]

theorem sub21_noPair_self (a b r : Char) (h1 : r ≠ a) (h2 : r ≠ b) (s : List Char) :
    noPair a b (sub21 a b r s) := by
  induction s using sub21.induct a b r with
  | case1 => trivial
  | case2 x => trivial
  | case3 x y rest h ih =>
      simp only [sub21, if_pos h]
      exact noPair_cons a b r _ (fun z _ hz => h1 hz.1) ih
  | case4 x y rest h ih =>
      simp only [sub21, if_neg h]
      refine noPair_cons a b x _ (fun z hz hxz => ?_) ih
      rcases sub21_head? a b r (y :: rest) with hh | hh
      · rw [hz] at hh
        simp only [List.head?_cons] at hh
        have hzy : z = y := by injection hh
        exact h ⟨hxz.1, hzy ▸ hxz.2⟩
      · rw [hz] at hh
        have hzr : z = r := by injection hh
        exact h2 ((hzr ▸ hxz.2 : r = b))

theorem sub12_singleton (a b d x : Char) :
    sub12 a b d [x] = if x = a then [b, d] else [x] := rfl

theorem sepChar_self (c : Char) (h : c ∉ separations.map (fun p => p.1)) :
    sepChar c = [c] := by
  simp only [separations, List.map_cons, List.map_nil, List.mem_cons, List.not_mem_nil,
    or_false, not_or] at h
  obtain ⟨n1, n2, n3, n4, n5, n6, n7, n8, n9, n10, n11⟩ := h
  show separate_chars [c] = [c]
  simp only [separate_chars, separations, List.foldl_cons, List.foldl_nil]
  simp [sub12_singleton, n1, n2, n3, n4, n5, n6, n7, n8, n9, n10, n11]

theorem flatMap_sepChar_self (w : List Char)
    (h : ∀ c ∈ w, c ∉ separations.map (fun p => p.1)) : w.flatMap sepChar = w := by
  induction w with
  | nil => rfl
  | cons c rest ih =>
      rw [List.flatMap_cons, sepChar_self c (h c (by simp)), ih (fun d hd => h d (by simp [hd]))]
      rfl

/-- C7 (amended): if a word's only already-combined characters are the
three digraphs װ, ױ, ײ (no character of the `separate_chars` table
occurs in it) and, in addition, none of the decomposed digraph pairs
וו, וי, יי occurs in it, then `separate_chars (combine_chars w) = w`.
The additional no-digraph-pair hypothesis is forced by the
counterexample: `combine_chars` fuses such a pair into the single
digraph character, which `separate_chars` intentionally never
decomposes again. -/
theorem c7_separate_combine_roundtrip (w : List Char)
    (hpre : ∀ c ∈ w, c ∉ separations.map (fun p => p.1))
    (h1 : noPair 'ו' 'ו' w) (h2 : noPair 'ו' 'י' w) (h3 : noPair 'י' 'י' w) :
    separate_chars (combine_chars w) = w := by
  have e : combine_chars w =
      sub21 '\u05EA' '\u05BC' '\uFB4A' (sub21 '\u05E9' '\u05C2' '\uFB2B' (sub21 '\u05E4'
        '\u05BF' '\uFB4E' (sub21 '\u05E4' '\u05BC' '\uFB44' (sub21 '\u05DB' '\u05BC' '\uFB3B'
        (sub21 '\u05F2' '\u05B7' '\uFB1F' (sub21 '\u05D9' '\u05D9' '\u05F2' (sub21 '\u05D9'
        '\u05B4' '\uFB1D' (sub21 '\u05D5' '\u05D9' '\u05F1' (sub21 '\u05D5' '\u05D5' '\u05F0'
        (sub21 '\u05D5' '\u05BC' '\uFB35' (sub21 '\u05D1' '\u05BF' '\uFB4C' (sub21 '\u05D0'
        '\u05B8' '\uFB2F' (sub21 '\u05D0' '\u05B7' '\uFB2E' w))))))))))))) := by
    simp only [combine_chars, combinations, List.foldl_cons, List.foldl_nil]
  set s4 := sub21 '\u05D5' '\u05BC' '\uFB35' (sub21 '\u05D1' '\u05BF' '\uFB4C' (sub21
    '\u05D0' '\u05B8' '\uFB2F' (sub21 '\u05D0' '\u05B7' '\uFB2E' w))) with hs4
  have np1 : noPair '\u05D5' '\u05D5' s4 := by
    refine noPair_sub21 _ _ _ _ _ (by decide) (by decide) _ ?_
    refine noPair_sub21 _ _ _ _ _ (by decide) (by decide) _ ?_
    refine noPair_sub21 _ _ _ _ _ (by decide) (by decide) _ ?_
    exact noPair_sub21 _ _ _ _ _ (by decide) (by decide) _ h1
  have np2 : noPair '\u05D5' '\u05D9' s4 := by
    refine noPair_sub21 _ _ _ _ _ (by decide) (by decide) _ ?_
    refine noPair_sub21 _ _ _ _ _ (by decide) (by decide) _ ?_
    refine noPair_sub21 _ _ _ _ _ (by decide) (by decide) _ ?_
    exact noPair_sub21 _ _ _ _ _ (by decide) (by decide) _ h2
  have np3 : noPair '\u05D9' '\u05D9' s4 := by
    refine noPair_sub21 _ _ _ _ _ (by decide) (by decide) _ ?_
    refine noPair_sub21 _ _ _ _ _ (by decide) (by decide) _ ?_
    refine noPair_sub21 _ _ _ _ _ (by decide) (by decide) _ ?_
    exact noPair_sub21 _ _ _ _ _ (by decide) (by decide) _ h3
  have f5 : sub21 '\u05D5' '\u05D5' '\u05F0' s4 = s4 := sub21_eq_of_noPair _ _ _ _ np1
  have f6 : sub21 '\u05D5' '\u05D9' '\u05F1' s4 = s4 := sub21_eq_of_noPair _ _ _ _ np2
  have np3x : noPair '\u05D9' '\u05D9' (sub21 '\u05D9' '\u05B4' '\uFB1D' s4) :=
    noPair_sub21 _ _ _ _ _ (by decide) (by decide) _ np3
  have f8 : sub21 '\u05D9' '\u05D9' '\u05F2' (sub21 '\u05D9' '\u05B4' '\uFB1D' s4) =
      sub21 '\u05D9' '\u05B4' '\uFB1D' s4 :=
    sub21_eq_of_noPair _ _ _ _ np3x
  rw [separate_chars_eq_flatMap, e, f5, f6, f8]
  rw [flatMap_sepChar_sub21 _ _ _ (by decide) (by decide) (by decide)]
  rw [flatMap_sepChar_sub21 _ _ _ (by decide) (by decide) (by decide)]
  rw [flatMap_sepChar_sub21 _ _ _ (by decide) (by decide) (by decide)]
  rw [flatMap_sepChar_sub21 _ _ _ (by decide) (by decide) (by decide)]
  rw [flatMap_sepChar_sub21 _ _ _ (by decide) (by decide) (by decide)]
  rw [flatMap_sepChar_sub21 _ _ _ (by decide) (by decide) (by decide)]
  rw [flatMap_sepChar_sub21 _ _ _ (by decide) (by decide) (by decide)]
  rw [hs4]
  rw [flatMap_sepChar_sub21 _ _ _ (by decide) (by decide) (by decide)]
  rw [flatMap_sepChar_sub21 _ _ _ (by decide) (by decide) (by decide)]
  rw [flatMap_sepChar_sub21 _ _ _ (by decide) (by decide) (by decide)]
  rw [flatMap_sepChar_sub21 _ _ _ (by decide) (by decide) (by decide)]
  exact flatMap_sepChar_self w hpre

/-- C7 witness: the word בֿרודער written with a decomposed rafe
round-trips through `combine_chars` and `separate_chars`. -/
theorem c7_separate_combine_roundtrip_witness :
    ((∀ c ∈ ['ב', 'ֿ', 'ר', 'ו', 'ד', 'ע', 'ר'], c ∉ separations.map (fun p => p.1)) ∧
      noPair 'ו' 'ו' ['ב', 'ֿ', 'ר', 'ו', 'ד', 'ע', 'ר'] ∧
      noPair 'ו' 'י' ['ב', 'ֿ', 'ר', 'ו', 'ד', 'ע', 'ר'] ∧
      noPair 'י' 'י' ['ב', 'ֿ', 'ר', 'ו', 'ד', 'ע', 'ר']) ∧
    separate_chars (combine_chars ['ב', 'ֿ', 'ר', 'ו', 'ד', 'ע', 'ר']) =
      ['ב', 'ֿ', 'ר', 'ו', 'ד', 'ע', 'ר'] :=
  ⟨⟨by decide, by decide, by decide, by decide⟩,
    c7_separate_combine_roundtrip _ (by decide) (by decide) (by decide) (by decide)⟩

/-- C7 counterexample: the word וו (two decomposed vovs) contains no
already-combined character at all — it satisfies the claim's
hypothesis — yet the round trip returns the fused digraph װ, not the
original word. -/
theorem c7_claim_counterexample :
    (∀ c ∈ ['ו', 'ו'], c ∉ separations.map (fun p => p.1)) ∧
    separate_chars (combine_chars ['ו', 'ו']) ≠ ['ו', 'ו'] := by
  exact ⟨by decide, by decide⟩

/-! ## C5: the prefix-separation step -/

theorem prefixLoop_eq_find (w : List Char) (ps : List (List Char)) :
    prefixLoop w ps =
      match ps.find? (fun p => pyStartsWith p w && !pyEndsWith p w) with
      | some p => p ++ '-' :: w.drop p.length
      | none => w := by
  induction ps with
  | nil => rfl
  | cons p ps ih =>
      by_cases h : (pyStartsWith p w && !pyEndsWith p w) = true
      · rw [prefixLoop, if_pos h]
        simp only [List.find?, h]
      · have hf : (pyStartsWith p w && !pyEndsWith p w) = false := by simpa using h
        rw [prefixLoop, if_neg h]
        simp only [List.find?, hf, ih]

/-- C5 (amended): for every word, the prefix-separation step inserts a
hyphen immediately after the first entry of the prefix table, in table
order, that the word starts with but does not end with; when no entry
qualifies — in particular when every entry the word starts with is also
a suffix of the word, as when the word equals the entry — the word is
left unchanged. (The source tests `word.endswith(prefix)`, not equality
with the prefix.) -/
theorem c5_prefix_split_first_match (w : List Char) :
    separatePrefixStep w =
      match prefixes.find? (fun p => pyStartsWith p w && !pyEndsWith p w) with
      | some p => p ++ '-' :: w.drop p.length
      | none => w := by
  unfold separatePrefixStep
  by_cases hg : prefixes.any (fun p => pyStartsWith p w) = true
  · rw [if_pos hg, prefixLoop_eq_find]
  · rw [if_neg hg]
    have hnone : prefixes.find? (fun p => pyStartsWith p w && !pyEndsWith p w) = none := by
      rw [List.find?_eq_none]
      intro p hp hcond
      exact hg (List.any_eq_true.mpr ⟨p, hp, (Bool.and_eq_true _ _).mp hcond |>.1⟩)
    rw [hnone]

/-- C5 counterexample: the word פֿאָרױס is itself an entry of the prefix
table, yet the prefix-separation step splits it as פֿאָר-ױס: the scan
reaches the earlier entry פֿאָר, which the word starts with but does not
end with, before reaching the entry equal to the word. A word exactly
equal to a table entry is therefore not always left unsplit. -/
theorem c5_claim_counterexample :
    (['פ', 'ֿ', 'א', 'ָ', 'ר', 'ױ', 'ס'] : List Char) ∈ prefixes ∧
    separatePrefixStep ['פ', 'ֿ', 'א', 'ָ', 'ר', 'ױ', 'ס'] =
      ['פ', 'ֿ', 'א', 'ָ', 'ר', '-', 'ױ', 'ס'] := by
  exact ⟨by decide, by decide⟩

/-! ## C8: no word-initial ņ or ļ placeholder -/

theorem intersperse_head? (a : Char) (l : List Char) :
    (List.intersperse a l).head? = l.head? := by
  match l with
  | [] => rfl
  | [x] => rfl
  | x :: y :: rest => rfl

theorem undoInitial_head? (t : List Char) :
    (undoInitial t).head? ≠ some 'ņ' ∧ (undoInitial t).head? ≠ some 'ļ' := by
  match t with
  | [] => exact ⟨by simp [undoInitial], by simp [undoInitial]⟩
  | c :: rest =>
      by_cases h1 : c = 'ņ'
      · simp [undoInitial, h1]
      · by_cases h2 : c = 'ļ'
        · simp [undoInitial, h1, h2]
        · simp [undoInitial, h1, h2]

/-- C8 (amended): the output of `replace_consonant_j_syllabic_nl` never
begins with the nun placeholder ņ or the lamed placeholder ļ — the
final check of lines 93-96 restores those two word-initially — but that
check does not cover the langer-nun placeholder Ņ, so a word beginning
with ן is emitted with a word-initial syllabic-variant placeholder. -/
theorem c8_no_initial_nun_lamed (s : List Char) :
    (replace_consonant_j_syllabic_nl s).head? ≠ some 'ņ' ∧
    (replace_consonant_j_syllabic_nl s).head? ≠ some 'ļ' := by
  unfold replace_consonant_j_syllabic_nl replaceCore
  rw [intersperse_head?]
  exact undoInitial_head? _

/-- C8 counterexample: the word ן (just a langer nun) is retagged to
the syllabic placeholder Ņ, and the placeholder is left word-initial in
the output. -/
theorem c8_claim_counterexample :
    replace_consonant_j_syllabic_nl ['ן'] = ['Ņ'] := by decide

/-! ## C10 and C6: the post-filter loop -/

theorem pyIndex_isSome (c : Char) (s : List Char) :
    (pyIndex c s).isSome = true ↔ c ∈ s := by
  induction s with
  | nil => simp [pyIndex]
  | cons x rest ih =>
      by_cases hx : x = c
      · simp [pyIndex, hx]
      · simp [pyIndex, hx, ih, Ne.symm hx]

theorem pyRIndex_isSome (c : Char) (s : List Char) :
    (pyRIndex c s).isSome = true ↔ c ∈ s := by
  simp [pyRIndex, pyIndex_isSome]

theorem mem_sub21 (d a b r : Char) (hda : d ≠ a) (hdb : d ≠ b) (s : List Char)
    (hd : d ∈ s) : d ∈ sub21 a b r s := by
  induction s using sub21.induct a b r with
  | case1 => exact absurd hd (by simp)
  | case2 x => simpa [sub21] using hd
  | case3 x y rest h ih =>
      simp only [sub21, if_pos h]
      rcases List.mem_cons.mp hd with hdx | hd2
      · exact absurd (hdx.trans h.1) hda
      · rcases List.mem_cons.mp hd2 with hdy | hd3
        · exact absurd (hdy.trans h.2) hdb
        · exact List.mem_cons_of_mem _ (ih hd3)
  | case4 x y rest h ih =>
      simp only [sub21, if_neg h]
      rcases List.mem_cons.mp hd with hdx | hd2
      · exact hdx ▸ List.mem_cons_self _ _
      · exact List.mem_cons_of_mem _ (ih hd2)

theorem mem_foldl_sub21 (d : Char) (ps : List (Char × Char × Char))
    (hp : ∀ p ∈ ps, d ≠ p.1 ∧ d ≠ p.2.1) (s : List Char) (hd : d ∈ s) :
    d ∈ ps.foldl (fun t p => sub21 p.1 p.2.1 p.2.2 t) s := by
  induction ps generalizing s with
  | nil => exact hd
  | cons p ps ih =>
      simp only [List.foldl_cons]
      refine ih (fun q hq => hp q (List.mem_cons_of_mem _ hq)) _ ?_
      obtain ⟨h1, h2⟩ := hp p (List.mem_cons_self _ _)
      exact mem_sub21 d _ _ _ h1 h2 s hd

theorem hyphen_mem_combine (w : List Char) (h : '-' ∈ w) : '-' ∈ combine_chars w :=
  mem_foldl_sub21 '-' combinations (by decide) w h

theorem postFilterFirst_isSome (w : List Char) (h : '-' ∈ w) :
    (postFilterFirst w).isSome = true := by
  obtain ⟨i1, e1⟩ :=
    Option.isSome_iff_exists.mp ((pyIndex_isSome _ _).mpr (hyphen_mem_combine w h))
  obtain ⟨j1, ej1⟩ := Option.isSome_iff_exists.mp ((pyIndex_isSome _ _).mpr h)
  by_cases hlen : ((combine_chars w).take i1).length < 2
  · simp only [postFilterFirst, e1, Option.bind_eq_bind, Option.some_bind]
    rw [if_pos hlen]
    simp [ej1, Option.bind_eq_bind, Option.some_bind]
  · simp only [postFilterFirst, e1, Option.bind_eq_bind, Option.some_bind]
    rw [if_neg hlen]
    simp

theorem postFilterSecond_isSome (w1 : List Char) :
    (postFilterSecond w1).isSome = true := by
  by_cases hm : '-' ∈ w1
  · obtain ⟨i2, e2⟩ :=
      Option.isSome_iff_exists.mp ((pyRIndex_isSome _ _).mpr (hyphen_mem_combine w1 hm))
    obtain ⟨j2, ej2⟩ := Option.isSome_iff_exists.mp ((pyRIndex_isSome _ _).mpr hm)
    by_cases hlen : ((combine_chars w1).drop (i2 + 1)).length < 3
    · unfold postFilterSecond
      rw [if_pos hm, e2]
      simp only [Option.bind_eq_bind, Option.some_bind]
      rw [if_pos hlen]
      simp [ej2, Option.bind_eq_bind, Option.some_bind]
    · unfold postFilterSecond
      rw [if_pos hm, e2]
      simp only [Option.bind_eq_bind, Option.some_bind]
      rw [if_neg hlen]
      simp
  · unfold postFilterSecond
    rw [if_neg hm]
    rfl

theorem postFilterWord_isSome (w : List Char) (h : '-' ∈ w) :
    (postFilterWord w).isSome = true := by
  obtain ⟨w1, e1⟩ := Option.isSome_iff_exists.mp (postFilterFirst_isSome w h)
  obtain ⟨w2, e2⟩ := Option.isSome_iff_exists.mp (postFilterSecond_isSome w1)
  simp [postFilterWord, e1, e2, Option.bind_eq_bind, Option.some_bind]

/-- C10: for every word containing a hyphen — which is what line 125
admits to the post-filter loop — the post-filter body never raises: the
`index` calls on the word and on its `combine_chars` image succeed
(`combine_chars` neither inserts nor removes hyphens), and the
re-guarded `rindex` calls succeed as well, so the `ValueError` branch
is unreachable. -/
theorem c10_postfilter_total (w : List Char) (h : '-' ∈ w) :
    (postFilterWord w).isSome = true :=
  postFilterWord_isSome w h

/-- C10 witness. -/
theorem c10_postfilter_total_witness :
    ('-' ∈ (['ב', 'ב', '-', 'ב', 'ב', 'ב'] : List Char)) ∧
    (postFilterWord ['ב', 'ב', '-', 'ב', 'ב', 'ב']).isSome = true :=
  ⟨by decide, c10_postfilter_total _ (by decide)⟩

theorem postFilterAll_isSome (l : List (List Char))
    (h : ∀ w ∈ l, (postFilterWord w).isSome = true) :
    ∃ out, postFilterAll l = some out ∧ out.length = l.length := by
  induction l with
  | nil => exact ⟨[], rfl, rfl⟩
  | cons a l ih =>
      obtain ⟨b, eb⟩ := Option.isSome_iff_exists.mp (h a (List.mem_cons_self _ _))
      obtain ⟨out, eout, elen⟩ := ih (fun x hx => h x (List.mem_cons_of_mem _ hx))
      refine ⟨b :: out, ?_, by simp [elen]⟩
      simp [postFilterAll, eb, eout, Option.bind_eq_bind, Option.some_bind]

/-- C6 (amended): every word admitted by the hyphen filter of line 125
contains a hyphen, but the post-filter loop of lines 132-141 retains
every word it processes — the final list has exactly one entry per
admitted word — even when the short-fragment or loshn-koydesh rules
deleted all of a word's hyphens; there is no final hyphen check before
`writeTeXfile`. -/
theorem c6_postfilter_retains_all (l : List (List Char)) :
    (∀ w ∈ keepHyphenated l, '-' ∈ w) ∧
    ∃ out, postFilterAll (keepHyphenated l) = some out ∧
      out.length = (keepHyphenated l).length := by
  have hmem : ∀ w ∈ keepHyphenated l, '-' ∈ w := by
    intro w hw
    have := (List.mem_filter.mp hw).2
    simpa using this
  refine ⟨hmem, ?_⟩
  exact postFilterAll_isSome _ (fun w hw => postFilterWord_isSome w (hmem w hw))

/-- C6 counterexample: the word א-בב contains a hyphen when admitted,
the first post-filter rule deletes its only hyphen (one combined
character precedes it), and the hyphen-free result אבב is nevertheless
retained in the final list. -/
theorem c6_claim_counterexample :
    postFilterAll (keepHyphenated [['א', '-', 'ב', 'ב']]) = some [['א', 'ב', 'ב']] ∧
    '-' ∉ (['א', 'ב', 'ב'] : List Char) := by
  exact ⟨by decide, by decide⟩

/-! ## C9: contents of the onset inventory -/

/-- C9 (amended): the onset collection built by
`generate_yiddish_patterns` contains the empty onset, every singleton
consonant grapheme, and the space-join of every tuple in the Cartesian
expansion of every onset skeleton through the transliteration map; it
is however a Python list with duplicate entries, not a duplicate-free
set. -/
theorem c9_all_onsets_membership :
    (([] : List Char) ∈ generate_yiddish_patterns.onsets) ∧
    (∀ c ∈ consonants, c ∈ generate_yiddish_patterns.onsets) ∧
    (∀ sk ∈ onsets, ∀ combo ∈ expandOnset sk,
      spaceJoin combo ∈ generate_yiddish_patterns.onsets) := by
  refine ⟨?_, ?_, ?_⟩
  · show ([] : List Char) ∈ all_onsets
    unfold all_onsets
    simp
  · intro c hc
    show c ∈ all_onsets
    unfold all_onsets
    simp [hc]
  · intro sk hsk combo hcombo
    show spaceJoin combo ∈ all_onsets
    unfold all_onsets
    refine List.mem_append.mpr (Or.inl (List.mem_append.mpr (Or.inl ?_)))
    refine List.mem_map.mpr ⟨combo, ?_, rfl⟩
    exact List.mem_flatten.mpr ⟨expandOnset sk, List.mem_map.mpr ⟨sk, hsk, rfl⟩, hcombo⟩

/-- C9 witness: the singleton consonant ב, the skeleton P L with its
unique expansion, and the empty onset are all members. -/
theorem c9_all_onsets_membership_witness :
    ((['ב'] : List Char) ∈ consonants ∧
      (['P', ' ', 'L'] : List Char) ∈ onsets ∧
      ([['פ', 'ּ'], ['ל']] : List (List Char)) ∈ expandOnset ['P', ' ', 'L']) ∧
    ((([] : List Char) ∈ generate_yiddish_patterns.onsets) ∧
      (['ב'] : List Char) ∈ generate_yiddish_patterns.onsets ∧
      spaceJoin [['פ', 'ּ'], ['ל']] ∈ generate_yiddish_patterns.onsets) :=
  ⟨⟨by decide, by decide, by decide⟩,
    ⟨c9_all_onsets_membership.1,
      c9_all_onsets_membership.2.1 ['ב'] (by decide),
      c9_all_onsets_membership.2.2 ['P', ' ', 'L'] (by decide) [['פ', 'ּ'], ['ל']] (by decide)⟩⟩

set_option maxRecDepth 16000 in
/-- C9 counterexample: the onset list is not duplicate-free — the
skeleton P L appears twice at line 194, so the concrete onset פּ ל
(with its decomposed transliteration characters) occurs twice. -/
theorem c9_claim_counterexample : ¬ generate_yiddish_patterns.onsets.Nodup := by
  decide

/-! ## C3 and C4 -/

/-- C3: under src/ the onset-inventory builder takes no system
argument, so the call `generate_yiddish_patterns(args.system)` at line
119 of the LaTeX pipeline raises `TypeError` for both permitted
selector values — neither `jacobs` nor `viler` ever produces an
inventory there. -/
theorem c3_system_call_fails :
    latexBuildPatterns ['j', 'a', 'c', 'o', 'b', 's'] = Except.error () ∧
    latexBuildPatterns ['v', 'i', 'l', 'e', 'r'] = Except.error () :=
  ⟨rfl, rfl⟩

/-- C4: evaluation at the failing input אַ.Q (canonicalized and
preprocessed before reaching `add_syllable_boundaries`). The first
subword syllabifies to אַ and the punctuation mark is retained, but the
unrecognized character Q makes the last subword fall back — and the
fallback reassigns the accumulator (`subwords_syllabified =
list(subword)`) instead of appending, so the already-processed segments
אַ and . are discarded: the whole result is the raw failing segment,
not the claim's אַ. followed by it. -/
theorem c4_fallback_discards_earlier :
    add_syllable_boundaries generate_yiddish_patterns
      (replace_consonant_j_syllabic_nl (combine_chars ['א', 'ַ', '.', 'Q'])) = [' ', 'Q'] ∧
    ([' ', 'Q'] : List Char) ≠ ['אַ', '.', ' ', 'Q'] := by
  exact ⟨by decide, by decide⟩

/-! ## C1: the Maximum Onset Principle -/

theorem splitRun_append (O : List (List Char)) (run : List (List Char)) :
    (splitRun O run).1 ++ (splitRun O run).2 = run := by
  induction run with
  | nil => rfl
  | cons c rest ih =>
      unfold splitRun
      by_cases h : spaceJoin (c :: rest) ∈ O
      · rw [if_pos h]
        rfl
      · rw [if_neg h]
        simpa using ih

theorem splitRun_legal (O : List (List Char)) (run : List (List Char)) :
    (splitRun O run).2 = [] ∨ spaceJoin (splitRun O run).2 ∈ O := by
  induction run with
  | nil => exact Or.inl rfl
  | cons c rest ih =>
      unfold splitRun
      by_cases h : spaceJoin (c :: rest) ∈ O
      · rw [if_pos h]
        exact Or.inr h
      · rw [if_neg h]
        simpa using ih

theorem splitRun_longest (O : List (List Char)) (run : List (List Char)) :
    ∀ k, spaceJoin (run.drop k) ∈ O → run.length - k ≤ (splitRun O run).2.length := by
  induction run with
  | nil => intro k _; simp
  | cons c rest ih =>
      intro k hk
      unfold splitRun
      by_cases h : spaceJoin (c :: rest) ∈ O
      · rw [if_pos h]
        simp [Nat.sub_le]
      · rw [if_neg h]
        cases k with
        | zero => exact absurd hk h
        | succ k =>
            simp only [List.drop_succ_cons] at hk
            have hle := ih k hk
            simp only [List.length_cons]
            omega

theorem goSyll_run (pats : YiddishPatterns) (run : List (List Char))
    (hrun : ∀ t ∈ run, t ∉ pats.vowels ∧ t ∈ pats.consonants) :
    ∀ rsyls inter ts,
      goSyll pats rsyls inter (run ++ ts) = goSyll pats rsyls (inter ++ run) ts := by
  induction run with
  | nil => intro rsyls inter ts; simp
  | cons t run ih =>
      intro rsyls inter ts
      obtain ⟨hnv, hc⟩ := hrun t (List.mem_cons_self _ _)
      simp only [List.cons_append]
      rw [goSyll, if_neg hnv, if_pos hc,
        ih (fun u hu => hrun u (List.mem_cons_of_mem _ hu)) rsyls (inter ++ [t]) ts]
      simp

theorem goSyll_reach (pats : YiddishPatterns) (v : List Char) (hv : v ∈ pats.vowels) :
    ∀ pre, (∀ t ∈ pre, t ∈ pats.vowels ∨ t ∈ pats.consonants) →
    ∀ rsyls inter ts, ∃ o rstack,
      goSyll pats rsyls inter (pre ++ v :: ts) = goSyll pats (⟨o, [v], []⟩ :: rstack) [] ts := by
  intro pre
  induction pre with
  | nil =>
      intro _ rsyls inter ts
      simp only [List.nil_append]
      match rsyls with
      | [] =>
          refine ⟨inter, [], ?_⟩
          rw [goSyll, if_pos hv]
          rfl
      | s :: rest =>
          refine ⟨(splitRun pats.onsets inter).2,
            ⟨s.onset, s.nucleus, s.coda ++ (splitRun pats.onsets inter).1⟩ :: rest, ?_⟩
          rw [goSyll, if_pos hv]
          rfl
  | cons t pre ih =>
      intro hpre rsyls inter ts
      have htail : ∀ u ∈ pre, u ∈ pats.vowels ∨ u ∈ pats.consonants :=
        fun u hu => hpre u (List.mem_cons_of_mem _ hu)
      by_cases htv : t ∈ pats.vowels
      · simp only [List.cons_append]
        rw [goSyll, if_pos htv]
        exact ih htail _ _ _
      · have htc : t ∈ pats.consonants := by
          rcases hpre t (List.mem_cons_self _ _) with h | h
          · exact absurd h htv
          · exact h
        simp only [List.cons_append]
        rw [goSyll, if_neg htv, if_pos htc]
        exact ih htail _ _ _

theorem goSyll_frozen (pats : YiddishPatterns) :
    ∀ ts, (∀ t ∈ ts, t ∈ pats.vowels ∨ t ∈ pats.consonants) →
    ∀ inter top stack, ∃ pref ext,
      goSyll pats (top :: stack) inter ts =
        .ok ((pref ++ ⟨top.onset, top.nucleus, top.coda ++ ext⟩ :: stack).reverse) := by
  intro ts
  induction ts with
  | nil =>
      intro _ inter top stack
      exact ⟨[], inter, by rw [goSyll]; rfl⟩
  | cons t ts ih =>
      intro hts inter top stack
      have htail : ∀ u ∈ ts, u ∈ pats.vowels ∨ u ∈ pats.consonants :=
        fun u hu => hts u (List.mem_cons_of_mem _ hu)
      by_cases htv : t ∈ pats.vowels
      · rw [goSyll, if_pos htv]
        simp only [pushSyll]
        obtain ⟨pref, ext, he⟩ := ih htail []
          ⟨(splitRun pats.onsets inter).2, [t], []⟩
          (⟨top.onset, top.nucleus, top.coda ++ (splitRun pats.onsets inter).1⟩ :: stack)
        rw [he]
        refine ⟨pref ++ [⟨(splitRun pats.onsets inter).2, [t], [] ++ ext⟩],
          (splitRun pats.onsets inter).1, ?_⟩
        simp
      · have htc : t ∈ pats.consonants := by
          rcases hts t (List.mem_cons_self _ _) with h | h
          · exact absurd h htv
          · exact h
        rw [goSyll, if_neg htv, if_pos htc]
        obtain ⟨pref, ext, he⟩ := ih htail (inter ++ [t]) top stack
        exact ⟨pref, ext, he⟩

/-- C1 (spec-modelled syllabifier core): in any token segment whose
tokens are all classified, for the consonant run between two vowel
nuclei the syllabifier assigns exactly `(splitRun ...).2` — a suffix of
the run that is in the onset inventory (or empty when no suffix is) and
is at least as long as every suffix whose space-join is in the
inventory, so a legal two-consonant suffix always beats a one-consonant
one — to the onset of the syllable of the following nucleus, and the
remaining leftward consonants `(splitRun ...).1` to the coda of the
syllable of the preceding nucleus. -/
theorem c1_max_onset (pats : YiddishPatterns) (pre run rest : List (List Char))
    (v w : List Char) (hv : v ∈ pats.vowels) (hw : w ∈ pats.vowels)
    (hrun : ∀ t ∈ run, t ∉ pats.vowels ∧ t ∈ pats.consonants)
    (hpre : ∀ t ∈ pre, t ∈ pats.vowels ∨ t ∈ pats.consonants)
    (hrest : ∀ t ∈ rest, t ∈ pats.vowels ∨ t ∈ pats.consonants) :
    ∃ ss o c ts,
      syllabifyTokens pats (pre ++ v :: (run ++ w :: rest)) =
        .ok (ss ++ ⟨o, [v], (splitRun pats.onsets run).1⟩ ::
          ⟨(splitRun pats.onsets run).2, [w], c⟩ :: ts) ∧
      (splitRun pats.onsets run).1 ++ (splitRun pats.onsets run).2 = run ∧
      ((splitRun pats.onsets run).2 = [] ∨
        spaceJoin (splitRun pats.onsets run).2 ∈ pats.onsets) ∧
      (∀ k, spaceJoin (run.drop k) ∈ pats.onsets →
        run.length - k ≤ (splitRun pats.onsets run).2.length) := by
  obtain ⟨o, rstack, hreach⟩ := goSyll_reach pats v hv pre hpre [] [] (run ++ w :: rest)
  obtain ⟨pref, ext, h4⟩ := goSyll_frozen pats rest hrest []
    ⟨(splitRun pats.onsets run).2, [w], []⟩
    (⟨o, [v], (splitRun pats.onsets run).1⟩ :: rstack)
  refine ⟨rstack.reverse, o, [] ++ ext, pref.reverse, ?_, splitRun_append _ _,
    splitRun_legal _ _, splitRun_longest _ _⟩
  calc syllabifyTokens pats (pre ++ v :: (run ++ w :: rest))
      = goSyll pats (⟨o, [v], []⟩ :: rstack) [] (run ++ w :: rest) := hreach
    _ = goSyll pats (⟨o, [v], []⟩ :: rstack) run (w :: rest) := by
        simpa using goSyll_run pats run hrun (⟨o, [v], []⟩ :: rstack) [] (w :: rest)
    _ = goSyll pats (⟨(splitRun pats.onsets run).2, [w], []⟩ ::
          ⟨o, [v], (splitRun pats.onsets run).1⟩ :: rstack) [] rest := by
        rw [goSyll, if_pos hw]
        simp [pushSyll]
    _ = .ok ((pref ++ ⟨(splitRun pats.onsets run).2, [w], [] ++ ext⟩ ::
          ⟨o, [v], (splitRun pats.onsets run).1⟩ :: rstack).reverse) := h4
    _ = .ok (rstack.reverse ++ ⟨o, [v], (splitRun pats.onsets run).1⟩ ::
          ⟨(splitRun pats.onsets run).2, [w], [] ++ ext⟩ :: pref.reverse) := by
        simp

/-- C1 witness: in the segment אַ-שט-אַ the internuclear run שט has the
two-consonant legal onset ש ט, which wins over the legal one-consonant
suffix ט. -/
theorem c1_max_onset_witness :
    ((['\uFB2E'] : List Char) ∈ generate_yiddish_patterns.vowels ∧
      (∀ t ∈ ([['ש'], ['ט']] : List (List Char)),
        t ∉ generate_yiddish_patterns.vowels ∧ t ∈ generate_yiddish_patterns.consonants)) ∧
    (∃ ss o c ts,
      syllabifyTokens generate_yiddish_patterns
          ([] ++ ['\uFB2E'] :: ([['ש'], ['ט']] ++ ['\uFB2E'] :: [])) =
        .ok (ss ++ ⟨o, [['\uFB2E']], (splitRun generate_yiddish_patterns.onsets [['ש'], ['ט']]).1⟩ ::
          ⟨(splitRun generate_yiddish_patterns.onsets [['ש'], ['ט']]).2, [['\uFB2E']], c⟩ :: ts) ∧
      (splitRun generate_yiddish_patterns.onsets [['ש'], ['ט']]).1 ++
        (splitRun generate_yiddish_patterns.onsets [['ש'], ['ט']]).2 = [['ש'], ['ט']] ∧
      ((splitRun generate_yiddish_patterns.onsets [['ש'], ['ט']]).2 = [] ∨
        spaceJoin (splitRun generate_yiddish_patterns.onsets [['ש'], ['ט']]).2 ∈
          generate_yiddish_patterns.onsets) ∧
      (∀ k, spaceJoin (([['ש'], ['ט']] : List (List Char)).drop k) ∈
          generate_yiddish_patterns.onsets →
        ([['ש'], ['ט']] : List (List Char)).length - k ≤
          (splitRun generate_yiddish_patterns.onsets [['ש'], ['ט']]).2.length)) :=
  ⟨⟨by decide, by decide⟩,
    c1_max_onset generate_yiddish_patterns [] [['ש'], ['ט']] [] ['\uFB2E'] ['\uFB2E']
      (by decide) (by decide) (by decide) (by decide) (by decide)⟩

/-! ## C2: the coverage invariant -/

theorem splitWsAux_flatten (s : List Char) : ∀ acc,
    (splitWsAux acc s).flatten = acc.reverse ++ s.filter (fun c => !isPyWs c) := by
  induction s with
  | nil =>
      intro acc
      by_cases h : acc = []
      · simp [splitWsAux, h]
      · simp [splitWsAux, h]
  | cons c rest ih =>
      intro acc
      by_cases hws : isPyWs c
      · by_cases h : acc = []
        · simp [splitWsAux, hws, h, ih]
        · simp [splitWsAux, hws, h, ih]
      · simp [splitWsAux, hws, ih (c :: acc)]

theorem pySplitWs_flatten (s : List Char) :
    (pySplitWs s).flatten = s.filter (fun c => !isPyWs c) := by
  simpa using splitWsAux_flatten s []

theorem pushSyll_tokens (O : List (List Char)) (rsyls : List Syl) (inter : List (List Char))
    (t : List Char) :
    (pushSyll O rsyls inter t).reverse.flatMap sylTokens =
      rsyls.reverse.flatMap sylTokens ++ inter ++ [t] := by
  match rsyls with
  | [] => simp [pushSyll, sylTokens]
  | s :: rest =>
      have hsp := splitRun_append O inter
      have key : (splitRun O inter).1 ++ ((splitRun O inter).2 ++ [t]) = inter ++ [t] := by
        rw [← List.append_assoc, hsp]
      simp only [pushSyll]
      simp [sylTokens, List.append_assoc, key]

theorem finishSyll_tokens (rsyls : List Syl) (inter : List (List Char)) :
    (finishSyll rsyls inter).flatMap sylTokens =
      rsyls.reverse.flatMap sylTokens ++ inter := by
  match rsyls with
  | [] => simp [finishSyll, sylTokens]
  | s :: rest =>
      simp [finishSyll, sylTokens, List.flatMap_append, List.flatMap_cons, List.append_assoc]

theorem goSyll_tokens (pats : YiddishPatterns) :
    ∀ ts rsyls inter out, goSyll pats rsyls inter ts = .ok out →
      out.flatMap sylTokens = rsyls.reverse.flatMap sylTokens ++ inter ++ ts := by
  intro ts
  induction ts with
  | nil =>
      intro rsyls inter out h
      rw [goSyll] at h
      injection h with h
      rw [← h, finishSyll_tokens]
      simp
  | cons t ts ih =>
      intro rsyls inter out h
      rw [goSyll] at h
      by_cases htv : t ∈ pats.vowels
      · rw [if_pos htv] at h
        have := ih _ _ _ h
        rw [this, pushSyll_tokens]
        simp
      · rw [if_neg htv] at h
        by_cases htc : t ∈ pats.consonants
        · rw [if_pos htc] at h
          have := ih _ _ _ h
          rw [this]
          simp
        · rw [if_neg htc] at h
          exact absurd h (by simp)

theorem syllabifyTokens_tokens (pats : YiddishPatterns) (ts : List (List Char))
    (out : List Syl) (h : syllabifyTokens pats ts = .ok out) :
    out.flatMap sylTokens = ts := by
  simpa using goSyll_tokens pats ts [] [] out h

theorem removeHyphens_strip (s : List Char) :
    removeHyphens (stripTrailingHyphen s) = removeHyphens s := by
  induction s using List.reverseRecOn with
  | nil => rfl
  | append_singleton l a _ =>
      have hstrip : stripTrailingHyphen (l ++ [a]) = if a = '-' then l else l ++ [a] := by
        unfold stripTrailingHyphen
        rw [List.getLast?_concat]
        show (if a = '-' then (l ++ [a]).dropLast else l ++ [a]) = _
        rw [List.dropLast_concat]
      rw [hstrip]
      by_cases ha : a = '-'
      · rw [if_pos ha, ha]
        simp [removeHyphens]
      · rw [if_neg ha]

theorem revertChar_hyphen : revertChar '-' = '-' := by decide

theorem revertChar_ne_hyphen (c : Char) (h : c ≠ '-') : revertChar c ≠ '-' := by
  unfold revertChar
  split_ifs <;> first | decide | exact h

theorem removeHyphens_map_revert (s : List Char) :
    removeHyphens (s.map revertChar) = (removeHyphens s).map revertChar := by
  induction s with
  | nil => rfl
  | cons c rest ih =>
      by_cases hc : c = '-'
      · subst hc
        simp [removeHyphens, List.filter_cons, revertChar_hyphen] at ih ⊢
        simpa [revertChar_hyphen] using ih
      · have h2 := revertChar_ne_hyphen c hc
        simp [removeHyphens, List.filter_cons, hc, h2] at ih ⊢
        simpa using ih

theorem map_revert_sub22 (p1 p2 r1 : Char) (h : revertChar r1 = revertChar p1)
    (s : List Char) : (sub22 p1 p2 r1 p2 s).map revertChar = s.map revertChar := by
  induction s using sub22.induct p1 p2 r1 p2 with
  | case1 => rfl
  | case2 x => rfl
  | case3 x y rest hm ih =>
      obtain ⟨hx, hy⟩ := hm
      subst hx; subst hy
      rw [show sub22 x y r1 y (x :: y :: rest) = r1 :: y :: sub22 x y r1 y rest from by
        simp [sub22]]
      simp [h, ih]
  | case4 x y rest hm ih =>
      simp only [sub22, if_neg hm, List.map_cons] at ih ⊢
      rw [ih]

theorem sub32_eq_of_noPair (p1 p2 p3 r1 r2 : Char) (s : List Char)
    (hs : noPair p2 p3 s) : sub32 p1 p2 p3 r1 r2 s = s := by
  induction s using sub32.induct p1 p2 p3 r1 r2 with
  | case1 => rfl
  | case2 x => rfl
  | case3 x y => rfl
  | case4 x y z rest hm ih =>
      exact absurd ⟨hm.2.1, hm.2.2⟩ hs.2.1
  | case5 x y z rest hm ih =>
      simp only [sub32, if_neg hm]
      rw [ih (noPair_tail _ _ _ _ hs)]

theorem map_revert_sonorant (target rep : Char) (ahead : Bool)
    (h : revertChar rep = revertChar target) :
    ∀ (prev : Option Char) (s : List Char),
      (sonorantSub target rep ahead prev s).map revertChar = s.map revertChar := by
  intro prev s
  induction s generalizing prev with
  | nil => rfl
  | cons c rest ih =>
      simp only [sonorantSub, List.map_cons]
      rw [ih (some c)]
      by_cases hcond : (c = target && behindOk prev && (!ahead || aheadOk rest)) = true
      · rw [if_pos hcond]
        have hct : c = target := by
          have := (Bool.and_eq_true _ _).mp ((Bool.and_eq_true _ _).mp hcond).1
          exact of_decide_eq_true this.1
        rw [hct, h]
      · rw [if_neg hcond]

theorem map_revert_undo (s : List Char) :
    (undoInitial s).map revertChar = s.map revertChar := by
  match s with
  | [] => rfl
  | c :: rest =>
      show List.map revertChar
        (if c = 'ņ' then 'נ' :: rest else if c = 'ļ' then 'ל' :: rest else c :: rest) = _
      by_cases h1 : c = 'ņ'
      · rw [if_pos h1, h1]
        simp [revertChar]
      · rw [if_neg h1]
        by_cases h2 : c = 'ļ'
        · rw [if_pos h2, h2]
          simp [revertChar]
        · rw [if_neg h2]

theorem map_revert_self (s : List Char)
    (h : ∀ c ∈ s, c ≠ 'j' ∧ c ≠ 'ņ' ∧ c ≠ 'Ņ' ∧ c ≠ 'ļ') :
    s.map revertChar = s := by
  induction s with
  | nil => rfl
  | cons c rest ih =>
      obtain ⟨h1, h2, h3, h4⟩ := h c (List.mem_cons_self _ _)
      simp only [List.map_cons, revertChar, if_neg h1, if_neg h2, if_neg h3, if_neg h4]
      rw [ih (fun d hd => h d (List.mem_cons_of_mem _ hd))]

theorem sub22_head? (p1 p2 r1 r2 : Char) (s : List Char) :
    (sub22 p1 p2 r1 r2 s).head? = s.head? ∨ (sub22 p1 p2 r1 r2 s).head? = some r1 := by
  match s with
  | [] => exact Or.inl rfl
  | [x] => exact Or.inl rfl
  | x :: y :: rest =>
      by_cases h : x = p1 ∧ y = p2
      · right; simp [sub22, if_pos h]
      · left; simp [sub22, if_neg h]

theorem noPair_sub22 (p q p1 p2 r1 : Char) (h1 : r1 ≠ p) (h2 : r1 ≠ q) (s : List Char)
    (hs : noPair p q s) : noPair p q (sub22 p1 p2 r1 p2 s) := by
  induction s using sub22.induct p1 p2 r1 p2 with
  | case1 => trivial
  | case2 x => trivial
  | case3 x y rest hm ih =>
      obtain ⟨hx, hy⟩ := hm
      subst hx; subst hy
      rw [show sub22 x y r1 y (x :: y :: rest) = r1 :: y :: sub22 x y r1 y rest from by
        simp [sub22]]
      have htail := ih (noPair_tail _ _ _ _ (noPair_tail _ _ _ _ hs))
      refine noPair_cons p q r1 _ (fun z _ hz => h1 hz.1) ?_
      refine noPair_cons p q y _ (fun z hz hyz => ?_) htail
      rcases sub22_head? x y r1 y rest with hh | hh
      · rw [hz] at hh
        match rest, hh with
        | [], hh => exact absurd hh (by simp)
        | z' :: rest', hh =>
            have hzz : z = z' := by injection hh
            have hp : ¬(y = p ∧ z' = q) := (noPair_tail _ _ _ _ hs).1
            exact hp ⟨hyz.1, hzz ▸ hyz.2⟩
      · rw [hz] at hh
        have hzr : z = r1 := by injection hh
        exact h2 ((hzr ▸ hyz.2 : r1 = q))
  | case4 x y rest hm ih =>
      simp only [sub22, if_neg hm]
      have htail := ih (noPair_tail _ _ _ _ hs)
      refine noPair_cons p q x _ (fun z hz hxz => ?_) htail
      rcases sub22_head? p1 p2 r1 p2 (y :: rest) with hh | hh
      · rw [hz] at hh
        simp only [List.head?_cons] at hh
        have hzy : z = y := by injection hh
        exact hs.1 ⟨hxz.1, hzy ▸ hxz.2⟩
      · rw [hz] at hh
        have hzr : z = r1 := by injection hh
        exact h2 ((hzr ▸ hxz.2 : r1 = q))

theorem combine_noPair_yod_hiriq (w : List Char) :
    noPair 'י' 'ִ' (combine_chars w) := by
  have e : combine_chars w =
      sub21 'ת' 'ּ' 'תּ' (sub21 'ש' 'ׂ' 'שׂ' (sub21 'פ'
        'ֿ' 'פֿ' (sub21 'פ' 'ּ' 'פּ' (sub21 'כ' 'ּ' 'כּ'
        (sub21 'ײ' 'ַ' 'ײַ' (sub21 'י' 'י' 'ײ' (sub21 'י'
        'ִ' 'יִ' (sub21 'ו' 'י' 'ױ' (sub21 'ו' 'ו' 'װ'
        (sub21 'ו' 'ּ' 'וּ' (sub21 'ב' 'ֿ' 'בֿ' (sub21 'א'
        'ָ' 'אָ' (sub21 'א' 'ַ' 'אַ' w))))))))))))) := by
    simp only [combine_chars, combinations, List.foldl_cons, List.foldl_nil]
  rw [e]
  refine noPair_sub21 _ _ _ _ _ (by decide) (by decide) _ ?_
  refine noPair_sub21 _ _ _ _ _ (by decide) (by decide) _ ?_
  refine noPair_sub21 _ _ _ _ _ (by decide) (by decide) _ ?_
  refine noPair_sub21 _ _ _ _ _ (by decide) (by decide) _ ?_
  refine noPair_sub21 _ _ _ _ _ (by decide) (by decide) _ ?_
  refine noPair_sub21 _ _ _ _ _ (by decide) (by decide) _ ?_
  refine noPair_sub21 _ _ _ _ _ (by decide) (by decide) _ ?_
  refine sub21_noPair_self _ _ _ ?_ ?_ _ <;> decide

theorem combine_noPair_tsveyyudn_patah (w : List Char) :
    noPair 'ײ' 'ַ' (combine_chars w) := by
  have e : combine_chars w =
      sub21 'ת' 'ּ' 'תּ' (sub21 'ש' 'ׂ' 'שׂ' (sub21 'פ'
        'ֿ' 'פֿ' (sub21 'פ' 'ּ' 'פּ' (sub21 'כ' 'ּ' 'כּ'
        (sub21 'ײ' 'ַ' 'ײַ' (sub21 'י' 'י' 'ײ' (sub21 'י'
        'ִ' 'יִ' (sub21 'ו' 'י' 'ױ' (sub21 'ו' 'ו' 'װ'
        (sub21 'ו' 'ּ' 'וּ' (sub21 'ב' 'ֿ' 'בֿ' (sub21 'א'
        'ָ' 'אָ' (sub21 'א' 'ַ' 'אַ' w))))))))))))) := by
    simp only [combine_chars, combinations, List.foldl_cons, List.foldl_nil]
  rw [e]
  refine noPair_sub21 _ _ _ _ _ (by decide) (by decide) _ ?_
  refine noPair_sub21 _ _ _ _ _ (by decide) (by decide) _ ?_
  refine noPair_sub21 _ _ _ _ _ (by decide) (by decide) _ ?_
  refine noPair_sub21 _ _ _ _ _ (by decide) (by decide) _ ?_
  refine noPair_sub21 _ _ _ _ _ (by decide) (by decide) _ ?_
  refine sub21_noPair_self _ _ _ ?_ ?_ _ <;> decide

theorem not_mem_sub21 (d a b r : Char) (s : List Char) (hd : d ∉ s) (hr : d ≠ r) :
    d ∉ sub21 a b r s := by
  induction s using sub21.induct a b r with
  | case1 => exact List.not_mem_nil d
  | case2 x => exact hd
  | case3 x y rest hm ih =>
      simp only [sub21, if_pos hm, List.mem_cons, not_or]
      exact ⟨hr, ih (fun hmem => hd (by simp [hmem]))⟩
  | case4 x y rest hm ih =>
      simp only [sub21, if_neg hm, List.mem_cons, not_or]
      constructor
      · intro hdx
        exact hd (by simp [hdx])
      · exact ih (fun hmem => hd (List.mem_cons_of_mem _ hmem))

theorem not_mem_foldl_sub21 (d : Char) (ps : List (Char × Char × Char)) :
    ∀ w, (∀ p ∈ ps, d ≠ p.2.2) → d ∉ w →
      d ∉ ps.foldl (fun t p => sub21 p.1 p.2.1 p.2.2 t) w := by
  induction ps with
  | nil => intro w _ hd; exact hd
  | cons p ps ih =>
      intro w hp hd
      simp only [List.foldl_cons]
      exact ih _ (fun q hq => hp q (List.mem_cons_of_mem _ hq))
        (not_mem_sub21 d _ _ _ _ hd (hp p (List.mem_cons_self _ _)))

theorem not_mem_combine (d : Char) (hp : ∀ p ∈ combinations, d ≠ p.2.2) (w : List Char)
    (hd : d ∉ w) : d ∉ combine_chars w :=
  not_mem_foldl_sub21 d combinations w hp hd

theorem not_mem_sub22 (d p1 p2 r1 r2 : Char) (s : List Char) (hd : d ∉ s) (h1 : d ≠ r1)
    (h2 : d ≠ r2) : d ∉ sub22 p1 p2 r1 r2 s := by
  induction s using sub22.induct p1 p2 r1 r2 with
  | case1 => exact List.not_mem_nil d
  | case2 x => exact hd
  | case3 x y rest hm ih =>
      simp only [sub22, if_pos hm, List.mem_cons, not_or]
      exact ⟨h1, h2, ih (fun hmem => hd (by simp [hmem]))⟩
  | case4 x y rest hm ih =>
      simp only [sub22, if_neg hm, List.mem_cons, not_or]
      exact ⟨fun hdx => hd (by simp [hdx]), ih (fun hmem => hd (List.mem_cons_of_mem _ hmem))⟩

theorem not_mem_sub32 (d p1 p2 p3 r1 r2 : Char) (s : List Char) (hd : d ∉ s) (h1 : d ≠ r1)
    (h2 : d ≠ r2) : d ∉ sub32 p1 p2 p3 r1 r2 s := by
  induction s using sub32.induct p1 p2 p3 r1 r2 with
  | case1 => exact List.not_mem_nil d
  | case2 x => exact hd
  | case3 x y => exact hd
  | case4 x y z rest hm ih =>
      simp only [sub32, if_pos hm, List.mem_cons, not_or]
      exact ⟨h1, h2, ih (fun hmem => hd (by simp [hmem]))⟩
  | case5 x y z rest hm ih =>
      simp only [sub32, if_neg hm, List.mem_cons, not_or]
      exact ⟨fun hdx => hd (by simp [hdx]), ih (fun hmem => hd (List.mem_cons_of_mem _ hmem))⟩

theorem not_mem_sonorant (d target rep : Char) (ahead : Bool) (hr : d ≠ rep) :
    ∀ (prev : Option Char) (s : List Char), d ∉ s → d ∉ sonorantSub target rep ahead prev s := by
  intro prev s
  induction s generalizing prev with
  | nil => simp [sonorantSub]
  | cons c rest ih =>
      intro hd
      simp only [sonorantSub, List.mem_cons, not_or]
      constructor
      · by_cases hcond : (c = target && behindOk prev && (!ahead || aheadOk rest)) = true
        · rw [if_pos hcond]
          exact hr
        · rw [if_neg hcond]
          exact fun hdc => hd (by simp [hdc])
      · exact ih (some c) (fun hmem => hd (List.mem_cons_of_mem _ hmem))

theorem not_mem_undo (d : Char) (h1 : d ≠ 'נ') (h2 : d ≠ 'ל') (s : List Char) (hd : d ∉ s) :
    d ∉ undoInitial s := by
  match s with
  | [] => simp [undoInitial]
  | c :: rest =>
      show d ∉ (if c = 'ņ' then 'נ' :: rest else if c = 'ļ' then 'ל' :: rest else c :: rest)
      have hrest : d ∉ rest := fun hmem => hd (List.mem_cons_of_mem _ hmem)
      by_cases hc1 : c = 'ņ'
      · rw [if_pos hc1]
        simp only [List.mem_cons, not_or]
        exact ⟨h1, hrest⟩
      · rw [if_neg hc1]
        by_cases hc2 : c = 'ļ'
        · rw [if_pos hc2]
          simp only [List.mem_cons, not_or]
          exact ⟨h2, hrest⟩
        · rw [if_neg hc2]
          exact hd

theorem map_revert_replaceCore (w1 : List Char)
    (hnp1 : noPair 'י' 'ִ' w1) (hnp2 : noPair 'ײ' 'ַ' w1)
    (hself : ∀ c ∈ w1, c ≠ 'j' ∧ c ≠ 'ņ' ∧ c ≠ 'Ņ' ∧ c ≠ 'ļ') :
    (replaceCore w1).map revertChar = w1 := by
  unfold replaceCore
  set s4 := sub22 'י' 'ע' 'j' 'ע'
    (sub22 'י' 'ו' 'j' 'ו'
      (sub22 'י' 'אָ' 'j' 'אָ'
        (sub22 'י' 'אַ' 'j' 'אַ' w1))) with hs4
  have np1 : noPair 'י' 'ִ' s4 := by
    refine noPair_sub22 _ _ _ _ _ (by decide) (by decide) _ ?_
    refine noPair_sub22 _ _ _ _ _ (by decide) (by decide) _ ?_
    refine noPair_sub22 _ _ _ _ _ (by decide) (by decide) _ ?_
    exact noPair_sub22 _ _ _ _ _ (by decide) (by decide) _ hnp1
  have np2 : noPair 'ײ' 'ַ' s4 := by
    refine noPair_sub22 _ _ _ _ _ (by decide) (by decide) _ ?_
    refine noPair_sub22 _ _ _ _ _ (by decide) (by decide) _ ?_
    refine noPair_sub22 _ _ _ _ _ (by decide) (by decide) _ ?_
    exact noPair_sub22 _ _ _ _ _ (by decide) (by decide) _ hnp2
  have e5 : sub32 'י' 'י' 'ִ' 'j' 'יִ' s4 = s4 :=
    sub32_eq_of_noPair _ _ _ _ _ _ np1
  rw [e5]
  have e6 : sub32 'י' 'ײ' 'ַ' 'j' 'ײַ' s4 = s4 :=
    sub32_eq_of_noPair _ _ _ _ _ _ np2
  rw [e6, map_revert_undo,
    map_revert_sonorant 'ל' 'ļ' true (by decide),
    map_revert_sonorant 'ן' 'Ņ' false (by decide),
    map_revert_sonorant 'נ' 'ņ' true (by decide),
    map_revert_sub22 'י' 'ױ' 'j' (by decide),
    map_revert_sub22 'י' 'ײ' 'j' (by decide), hs4,
    map_revert_sub22 'י' 'ע' 'j' (by decide),
    map_revert_sub22 'י' 'ו' 'j' (by decide),
    map_revert_sub22 'י' 'אָ' 'j' (by decide),
    map_revert_sub22 'י' 'אַ' 'j' (by decide)]
  exact map_revert_self _ hself

theorem not_mem_replaceCore (d : Char)
    (hds : d ∉ ['j', 'אַ', 'אָ', 'ו', 'ע', 'יִ', 'ײַ', 'ײ',
      'ױ', 'ņ', 'Ņ', 'ļ', 'נ', 'ל'])
    (w1 : List Char) (hd : d ∉ w1) : d ∉ replaceCore w1 := by
  simp only [List.mem_cons, List.not_mem_nil, or_false, not_or] at hds
  obtain ⟨n1, n2, n3, n4, n5, n6, n7, n8, n9, n10, n11, n12, n13, n14⟩ := hds
  unfold replaceCore
  refine not_mem_undo d n13 n14 _ ?_
  refine not_mem_sonorant d _ _ _ n12 _ _ ?_
  refine not_mem_sonorant d _ _ _ n11 _ _ ?_
  refine not_mem_sonorant d _ _ _ n10 _ _ ?_
  refine not_mem_sub22 d _ _ _ _ _ ?_ n1 n9
  refine not_mem_sub22 d _ _ _ _ _ ?_ n1 n8
  refine not_mem_sub32 d _ _ _ _ _ _ ?_ n1 n7
  refine not_mem_sub32 d _ _ _ _ _ _ ?_ n1 n6
  refine not_mem_sub22 d _ _ _ _ _ ?_ n1 n5
  refine not_mem_sub22 d _ _ _ _ _ ?_ n1 n4
  refine not_mem_sub22 d _ _ _ _ _ ?_ n1 n3
  exact not_mem_sub22 d _ _ _ _ _ hd n1 n2

theorem filter_intersperse_space (l : List Char) (hl : ∀ c ∈ l, isPyWs c = false) :
    (List.intersperse ' ' l).filter (fun c => !isPyWs c) = l := by
  induction l with
  | nil => rfl
  | cons c rest ih =>
      have hc := hl c (List.mem_cons_self _ _)
      have hrest : ∀ d ∈ rest, isPyWs d = false :=
        fun d hd => hl d (List.mem_cons_of_mem _ hd)
      match rest with
      | [] => simp [List.intersperse, List.filter, hc]
      | y :: rest' =>
          show List.filter _ (c :: ' ' :: List.intersperse ' ' (y :: rest')) = _
          have hsp : isPyWs ' ' = true := by decide
          simp only [List.filter, hc, hsp, Bool.not_true, Bool.not_false]
          rw [ih hrest]

theorem mem_intersperse (c a : Char) (l : List Char) (h : c ∈ List.intersperse a l) :
    c ∈ l ∨ c = a := by
  induction l with
  | nil => exact absurd h (by simp [List.intersperse])
  | cons x rest ih =>
      match rest with
      | [] =>
          rcases List.mem_cons.mp h with h1 | h1
          · exact Or.inl (by simp [h1])
          · exact absurd h1 (by simp)
      | y :: rest' =>
          rcases List.mem_cons.mp h with h1 | h1
          · exact Or.inl (by simp [h1])
          · rcases List.mem_cons.mp h1 with h2 | h2
            · exact Or.inr h2
            · rcases ih h2 with h3 | h3
              · exact Or.inl (List.mem_cons_of_mem _ h3)
              · exact Or.inr h3

theorem pySplitKeep_flatten (s : List Char) : (pySplitKeep s).flatten = s := by
  induction s with
  | nil => rfl
  | cons c rest ih =>
      unfold pySplitKeep
      by_cases hc : isSplitPunct c = true
      · simp [hc, ih]
      · rw [if_neg (by simpa using hc)]
        match heq : pySplitKeep rest with
        | chunk :: pieces =>
            rw [heq] at ih
            simp only [List.flatten_cons] at ih ⊢
            rw [List.cons_append, ih]
        | [] =>
            rw [heq] at ih
            simp only [List.flatten_nil] at ih
            simp [← ih]

theorem pySplitKeep_shape_aux (s : List Char) :
    (pySplitKeep s ≠ []) ∧
    (∀ c ∈ (pySplitKeep s).headD [], isSplitPunct c = false) ∧
    (∀ piece ∈ pySplitKeep s,
      (∃ p, piece = [p] ∧ isSplitPunct p = true) ∨ ∀ c ∈ piece, isSplitPunct c = false) := by
  induction s with
  | nil =>
      refine ⟨by simp [pySplitKeep], by simp [pySplitKeep], ?_⟩
      intro piece hp
      rcases List.mem_cons.mp hp with h | h
      · right; intro c hc; rw [h] at hc; exact absurd hc (by simp)
      · exact absurd h (by simp)
  | cons c rest ih =>
      obtain ⟨ihne, ihhead, ihall⟩ := ih
      by_cases hc : isSplitPunct c = true
      · refine ⟨?_, ?_, ?_⟩
        · unfold pySplitKeep; rw [if_pos hc]; simp
        · unfold pySplitKeep; rw [if_pos hc]; simp
        · unfold pySplitKeep
          rw [if_pos hc]
          intro piece hp
          rcases List.mem_cons.mp hp with h | h
          · right; intro d hd; rw [h] at hd; exact absurd hd (by simp)
          · rcases List.mem_cons.mp h with h2 | h2
            · exact Or.inl ⟨c, h2, hc⟩
            · exact ihall piece h2
      · match heq : pySplitKeep rest with
        | [] => exact absurd heq ihne
        | chunk :: pieces =>
            have hres : pySplitKeep (c :: rest) = (c :: chunk) :: pieces := by
              unfold pySplitKeep
              rw [if_neg (by simpa using hc), heq]
            have hchunk : ∀ d ∈ chunk, isSplitPunct d = false := by
              intro d hd
              apply ihhead
              rw [heq]
              simpa using hd
            refine ⟨by rw [hres]; simp, ?_, ?_⟩
            · rw [hres]
              intro d hd
              rcases List.mem_cons.mp (by simpa using hd) with h2 | h2
              · rw [h2]; simpa using hc
              · exact hchunk d h2
            · rw [hres]
              intro piece hp
              rcases List.mem_cons.mp hp with h | h
              · right
                intro d hd
                rw [h] at hd
                rcases List.mem_cons.mp hd with h2 | h2
                · rw [h2]; simpa using hc
                · exact hchunk d h2
              · exact ihall piece (by rw [heq]; exact List.mem_cons_of_mem _ h)

theorem pySplitKeep_shape (s : List Char) :
    ∀ piece ∈ pySplitKeep s,
      (∃ p, piece = [p] ∧ isSplitPunct p = true) ∨ ∀ c ∈ piece, isSplitPunct c = false :=
  (pySplitKeep_shape_aux s).2.2

theorem punct_singleton_mem (p : Char) (hp : isSplitPunct p = true) : [p] ∈ punctStrings := by
  have hmem : p ∈ splitPunct := of_decide_eq_true hp
  simp only [splitPunct, List.mem_cons, List.not_mem_nil, or_false] at hmem
  rcases hmem with h|h|h|h|h|h|h|h|h|h|h|h|h|h|h|h <;> subst h <;> decide

theorem mem_punctStrings_shape (piece : List Char) (h : piece ∈ punctStrings) :
    ∃ p, piece = [p] ∧ isSplitPunct p = true := by
  simp only [punctStrings, List.mem_cons, List.not_mem_nil, or_false] at h
  rcases h with h|h|h|h|h|h|h|h|h|h|h|h|h|h|h|h <;> subst h <;> exact ⟨_, rfl, by decide⟩

theorem splitPunct_not_ws (p : Char) (hp : isSplitPunct p = true) : isPyWs p = false := by
  have hmem : p ∈ splitPunct := of_decide_eq_true hp
  simp only [splitPunct, List.mem_cons, List.not_mem_nil, or_false] at hmem
  rcases hmem with h|h|h|h|h|h|h|h|h|h|h|h|h|h|h|h <;> subst h <;> decide

theorem splitPunct_revert_self (p : Char) (hp : isSplitPunct p = true) : revertChar p = p := by
  have hmem : p ∈ splitPunct := of_decide_eq_true hp
  simp only [splitPunct, List.mem_cons, List.not_mem_nil, or_false] at hmem
  rcases hmem with h|h|h|h|h|h|h|h|h|h|h|h|h|h|h|h <;> subst h <;> decide

theorem filter_flatten_dist (p : Char → Bool) (l : List (List Char)) :
    (l.flatten).filter p = (l.map (fun t => t.filter p)).flatten := by
  induction l with
  | nil => rfl
  | cons t l ih => simp [List.filter_append, ih]

theorem map_flatten_dist (f : Char → Char) (l : List (List Char)) :
    (l.flatten).map f = (l.map (fun t => t.map f)).flatten := by
  induction l with
  | nil => rfl
  | cons t l ih => simp [ih]

theorem removeHyphens_render (syls : List Syl)
    (h : ∀ t ∈ syls.flatMap sylTokens, '-' ∉ t) :
    removeHyphens (renderSyls syls) = (syls.flatMap sylTokens).flatten := by
  induction syls with
  | nil => rfl
  | cons s syls ih =>
      have hs : ∀ t ∈ sylTokens s, '-' ∉ t := by
        intro t ht
        exact h t (by simp [List.flatMap_cons, ht])
      have hA : ((sylTokens s).flatten).filter (fun c => decide (c ≠ '-')) =
          (sylTokens s).flatten := by
        rw [List.filter_eq_self]
        intro a ha
        obtain ⟨t, ht, hat⟩ := List.mem_flatten.mp ha
        have := hs t ht
        simp only [decide_eq_true_eq]
        intro haeq
        exact this (haeq ▸ hat)
      have ihh := ih (fun t ht =>
        h t (by rw [List.flatMap_cons]; exact List.mem_append_right _ ht))
      simp only [renderSyls, List.flatMap_cons] at ihh ⊢
      simp only [removeHyphens, List.filter_append] at ihh ⊢
      rw [show List.filter (fun c => decide (c ≠ '-')) ['-'] = [] from by decide]
      simp only [List.flatten_append, List.flatten_cons]
      rw [hA, ihh]
      simp

/-- Proof-side description of the piece that one iteration of the
subword loop appends when no fallback occurs. -/
def segOutput (pats : YiddishPatterns) (seg : List Char) : List Char :=
  if seg ∈ punctStrings then seg else (processSubword pats seg).getD []

theorem addLoop_noFallback (pats : YiddishPatterns) :
    ∀ segs acc,
      (∀ seg ∈ segs, seg ∉ punctStrings → (processSubword pats seg).isSome = true) →
      addLoop pats acc segs = acc ++ segs.map (segOutput pats) := by
  intro segs
  induction segs with
  | nil => intro acc _; simp [addLoop]
  | cons seg rest ih =>
      intro acc h
      unfold addLoop
      by_cases hm : seg ∈ punctStrings
      · rw [if_pos hm, ih _ (fun q hq => h q (List.mem_cons_of_mem _ hq))]
        simp [segOutput, hm]
      · obtain ⟨r, hr⟩ := Option.isSome_iff_exists.mp (h seg (List.mem_cons_self _ _) hm)
        rw [if_neg hm, hr]
        show addLoop pats (acc ++ [r]) rest = _
        rw [ih (acc ++ [r]) (fun q hq => h q (List.mem_cons_of_mem _ hq))]
        simp [segOutput, hm, hr]

theorem processSubword_removeHyphens (pats : YiddishPatterns) (seg : List Char)
    (hhy : '-' ∉ seg) (r : List Char) (h : processSubword pats seg = some r) :
    removeHyphens r = (seg.filter (fun c => !isPyWs c)).map revertChar := by
  unfold processSubword at h
  cases hsyl : syllabifyTokens pats (pySplitWs seg) with
  | error e => rw [hsyl] at h; exact absurd h (by simp)
  | ok syls =>
      rw [hsyl] at h
      simp only [Option.some.injEq] at h
      have htok : syls.flatMap sylTokens = pySplitWs seg := syllabifyTokens_tokens _ _ _ hsyl
      have hnotok : ∀ t ∈ syls.flatMap sylTokens, '-' ∉ t := by
        rw [htok]
        intro t ht hcmem
        have hfl : '-' ∈ (pySplitWs seg).flatten := List.mem_flatten.mpr ⟨t, ht, hcmem⟩
        rw [pySplitWs_flatten] at hfl
        exact hhy (List.mem_of_mem_filter hfl)
      calc removeHyphens r
          = removeHyphens (stripTrailingHyphen ((renderSyls syls).map revertChar)) := by
            rw [h]
        _ = removeHyphens ((renderSyls syls).map revertChar) := removeHyphens_strip _
        _ = (removeHyphens (renderSyls syls)).map revertChar := removeHyphens_map_revert _
        _ = ((syls.flatMap sylTokens).flatten).map revertChar := by
            rw [removeHyphens_render _ hnotok]
        _ = (seg.filter (fun c => !isPyWs c)).map revertChar := by
            rw [htok, pySplitWs_flatten]

set_option maxHeartbeats 1600000 in
/-- C2 (amended, with the spec-modelled syllabifier core): for every
word containing no hyphen, none of the internal placeholder characters
j, ņ, Ņ, ļ, and no whitespace, if no punctuation-delimited segment hits
the unrecognized-character fallback then deleting all hyphens from the
output of `add_syllable_boundaries` reproduces the canonicalized input
exactly. The extra exclusions are forced: a hyphen in the word survives
as a punctuation segment and is deleted with the syllable separators,
and a placeholder character in the word is translated to its ordinary
grapheme by the post-step, so the claim as stated fails on such
words. -/
theorem c2_coverage (w : List Char)
    (hclean : ∀ c ∈ w,
      c ≠ '-' ∧ c ≠ 'j' ∧ c ≠ 'ņ' ∧ c ≠ 'Ņ' ∧ c ≠ 'ļ' ∧ isPyWs c = false)
    (hnf : ∀ seg ∈ pySplitKeep (replace_consonant_j_syllabic_nl (combine_chars w)),
      seg ∉ punctStrings → (processSubword generate_yiddish_patterns seg).isSome = true) :
    removeHyphens (add_syllable_boundaries generate_yiddish_patterns
      (replace_consonant_j_syllabic_nl (combine_chars w))) = combine_chars w := by
  have hwd : ∀ d ∈ ['-', 'j', 'ņ', 'Ņ', 'ļ', ' ', '\t', '\n', '\x0d', '\x0b', '\x0c'],
      d ∉ w := by
    intro d hd hmem
    obtain ⟨h1, h2, h3, h4, h5, h6⟩ := hclean d hmem
    simp only [List.mem_cons, List.not_mem_nil, or_false] at hd
    rcases hd with h|h|h|h|h|h|h|h|h|h|h <;> subst h <;>
      first
        | exact h1 rfl
        | exact h2 rfl
        | exact h3 rfl
        | exact h4 rfl
        | exact h5 rfl
        | exact absurd h6 (by decide)
  have hw1 : ∀ d ∈ ['-', 'j', 'ņ', 'Ņ', 'ļ', ' ', '\t', '\n', '\x0d', '\x0b', '\x0c'],
      d ∉ combine_chars w := by
    intro d hd
    have hdmem := hd
    simp only [List.mem_cons, List.not_mem_nil, or_false] at hd
    rcases hd with h|h|h|h|h|h|h|h|h|h|h <;> subst h <;>
      exact not_mem_combine _ (by decide) w (hwd _ hdmem)
  have hself1 : ∀ c ∈ combine_chars w, c ≠ 'j' ∧ c ≠ 'ņ' ∧ c ≠ 'Ņ' ∧ c ≠ 'ļ' := by
    intro c hc
    refine ⟨?_, ?_, ?_, ?_⟩ <;> intro hceq <;> subst hceq
    · exact hw1 'j' (by decide) hc
    · exact hw1 'ņ' (by decide) hc
    · exact hw1 'Ņ' (by decide) hc
    · exact hw1 'ļ' (by decide) hc
  have hhy1 : '-' ∉ combine_chars w := hw1 '-' (by decide)
  have hrc_rev : (replaceCore (combine_chars w)).map revertChar = combine_chars w :=
    map_revert_replaceCore _ (combine_noPair_yod_hiriq w) (combine_noPair_tsveyyudn_patah w)
      hself1
  have hrc_ws : ∀ c ∈ replaceCore (combine_chars w), isPyWs c = false := by
    intro c hc
    by_contra hb
    rw [Bool.not_eq_false] at hb
    simp only [isPyWs, Bool.or_eq_true, decide_eq_true_eq] at hb
    rcases hb with ((((h|h)|h)|h)|h)|h <;> subst h <;>
      exact (not_mem_replaceCore _ (by decide) _ (hw1 _ (by decide))) hc
  have hrc_hy : '-' ∉ replaceCore (combine_chars w) :=
    not_mem_replaceCore '-' (by decide) _ hhy1
  have hw2_hy : '-' ∉ List.intersperse ' ' (replaceCore (combine_chars w)) := by
    intro hmem
    rcases mem_intersperse '-' ' ' _ hmem with h | h
    · exact hrc_hy h
    · exact absurd h (by decide)
  have hw2 : replace_consonant_j_syllabic_nl (combine_chars w) =
      List.intersperse ' ' (replaceCore (combine_chars w)) := rfl
  have hpiece : ∀ piece ∈ pySplitKeep (replace_consonant_j_syllabic_nl (combine_chars w)),
      removeHyphens (segOutput generate_yiddish_patterns piece) =
        (piece.filter (fun c => !isPyWs c)).map revertChar := by
    intro piece hp
    by_cases hm : piece ∈ punctStrings
    · obtain ⟨p, hpeq, hpp⟩ := mem_punctStrings_shape piece hm
      subst hpeq
      rw [segOutput, if_pos hm]
      have hpw2 : p ∈ replace_consonant_j_syllabic_nl (combine_chars w) := by
        have hfl : p ∈ (pySplitKeep (replace_consonant_j_syllabic_nl
            (combine_chars w))).flatten :=
          List.mem_flatten.mpr ⟨[p], hp, by simp⟩
        rwa [pySplitKeep_flatten] at hfl
      have hpne : p ≠ '-' := by
        intro he
        rw [hw2] at hpw2
        exact hw2_hy (he ▸ hpw2)
      have hws := splitPunct_not_ws p hpp
      have hrev := splitPunct_revert_self p hpp
      simp [removeHyphens, List.filter, hpne, hws, hrev]
    · have hiso := hnf piece hp hm
      obtain ⟨r, hr⟩ := Option.isSome_iff_exists.mp hiso
      rw [segOutput, if_neg hm, hr]
      have hchunk_hy : '-' ∉ piece := by
        intro hmem
        apply hw2_hy
        rw [← hw2]
        have hfl : '-' ∈ (pySplitKeep (replace_consonant_j_syllabic_nl
            (combine_chars w))).flatten :=
          List.mem_flatten.mpr ⟨piece, hp, hmem⟩
        rwa [pySplitKeep_flatten] at hfl
      simpa using processSubword_removeHyphens _ piece hchunk_hy r hr
  unfold add_syllable_boundaries
  rw [addLoop_noFallback _ _ [] hnf, List.nil_append]
  have hmapeq : ((pySplitKeep (replace_consonant_j_syllabic_nl (combine_chars w))).map
        (segOutput generate_yiddish_patterns)).map removeHyphens =
      (pySplitKeep (replace_consonant_j_syllabic_nl (combine_chars w))).map
        (fun piece => (piece.filter (fun c => !isPyWs c)).map revertChar) := by
    rw [List.map_map]
    exact List.map_congr_left (fun piece hp => hpiece piece hp)
  calc removeHyphens (((pySplitKeep (replace_consonant_j_syllabic_nl
          (combine_chars w))).map (segOutput generate_yiddish_patterns)).flatten)
      = (((pySplitKeep (replace_consonant_j_syllabic_nl (combine_chars w))).map
          (segOutput generate_yiddish_patterns)).map removeHyphens).flatten :=
        filter_flatten_dist _ _
    _ = ((pySplitKeep (replace_consonant_j_syllabic_nl (combine_chars w))).map
          (fun piece => (piece.filter (fun c => !isPyWs c)).map revertChar)).flatten := by
        rw [hmapeq]
    _ = (((pySplitKeep (replace_consonant_j_syllabic_nl (combine_chars w))).map
          (fun piece => piece.filter (fun c => !isPyWs c))).map
            (fun t => t.map revertChar)).flatten := by
        rw [List.map_map]
        rfl
    _ = (((pySplitKeep (replace_consonant_j_syllabic_nl (combine_chars w))).map
          (fun piece => piece.filter (fun c => !isPyWs c))).flatten).map revertChar := by
        rw [map_flatten_dist]
    _ = (((pySplitKeep (replace_consonant_j_syllabic_nl
          (combine_chars w))).flatten).filter (fun c => !isPyWs c)).map revertChar := by
        rw [filter_flatten_dist]
    _ = ((replace_consonant_j_syllabic_nl (combine_chars w)).filter
          (fun c => !isPyWs c)).map revertChar := by rw [pySplitKeep_flatten]
    _ = ((List.intersperse ' ' (replaceCore (combine_chars w))).filter
          (fun c => !isPyWs c)).map revertChar := by rw [hw2]
    _ = (replaceCore (combine_chars w)).map revertChar := by
        rw [filter_intersperse_space _ hrc_ws]
    _ = combine_chars w := hrc_rev

/-- C2 counterexample: the word jאַ-ב	ג (containing a placeholder
letter j, a hyphen and a tab) hits no fallback, yet deleting all
hyphens from the output gives יאַבג: the j was translated to י, the
original hyphen was deleted together with the syllable separators, and
the tab was swallowed by tokenization — so the canonicalized input is
not reproduced. -/
theorem c2_claim_counterexample :
    (∀ seg ∈ pySplitKeep (replace_consonant_j_syllabic_nl
        (combine_chars ['j', '\uFB2E', '-', 'ב', '\t', 'ג'])),
      seg ∉ punctStrings → (processSubword generate_yiddish_patterns seg).isSome = true) ∧
    removeHyphens (add_syllable_boundaries generate_yiddish_patterns
        (replace_consonant_j_syllabic_nl (combine_chars ['j', '\uFB2E', '-', 'ב', '\t', 'ג']))) ≠
      combine_chars ['j', '\uFB2E', '-', 'ב', '\t', 'ג'] := by
  exact ⟨by decide, by decide⟩

/-- C2 witness: the word גוט. -/
theorem c2_coverage_witness :
    ((∀ c ∈ (['ג', 'ו', 'ט'] : List Char),
        c ≠ '-' ∧ c ≠ 'j' ∧ c ≠ 'ņ' ∧ c ≠ 'Ņ' ∧ c ≠ 'ļ' ∧ isPyWs c = false) ∧
      (∀ seg ∈ pySplitKeep (replace_consonant_j_syllabic_nl (combine_chars ['ג', 'ו', 'ט'])),
        seg ∉ punctStrings →
          (processSubword generate_yiddish_patterns seg).isSome = true)) ∧
    removeHyphens (add_syllable_boundaries generate_yiddish_patterns
      (replace_consonant_j_syllabic_nl (combine_chars ['ג', 'ו', 'ט']))) =
        combine_chars ['ג', 'ו', 'ט'] :=
  ⟨⟨by decide, by decide⟩, c2_coverage _ (by decide) (by decide)⟩
